import Mathlib

/-!
Verification development for the exact ATSP solvers of
src/algorithms/TSPAlgorithms.cpp: bruteForce (iterative minimal-swap
permutation search), dynamicProgrammingHeldKarp (memoized subset dynamic
program) and branchAndBound (reduced-cost-matrix best-first search, whose
branching routines are empty stubs in the source).

Machine integers are modelled as mathematical Int with the 32-bit INT_MAX
value kept as an explicit sentinel; out-of-bounds vector accesses and the
dereference of a possibly-past-the-end iterator are modelled with Option;
loops whose termination is not structural carry an explicit fuel counter.
-/

/-- The C++ std::numeric_limits<int>::max() sentinel used for infinity. -/
def intMax : Int := 2147483647

/-- Shallow embedding of the IGraph capability consumed by the solvers:
getVertexCount and getEdgeParameter. -/
structure Graph where
  n : Nat
  w : Nat → Nat → Int

/-- Well-formed ATSP instance, following spec sections 3, 6 and 7: at least two
vertices; every off-diagonal weight is finite (below the INT_MAX sentinel) and
non-negative; and, per the spec's arithmetic precondition, a sum of up to n
edge weights fits in a machine int (stated as n * w i j < INT_MAX for each
off-diagonal weight). -/
def WellFormed (g : Graph) : Prop :=
  2 ≤ g.n ∧ ∀ i, i < g.n → ∀ j, j < g.n → i ≠ j →
    0 ≤ g.w i j ∧ (g.n : Int) * g.w i j < intMax

instance wellFormedDecidable (g : Graph) : Decidable (WellFormed g) :=
  inferInstanceAs (Decidable (2 ≤ g.n ∧ ∀ i, i < g.n → ∀ j, j < g.n → i ≠ j →
    0 ≤ g.w i j ∧ (g.n : Int) * g.w i j < intMax))

/-- Fold-minimum of a list of costs with a given start value: the shape of
every running-minimum loop in the source. -/
def listMinD (l : List Int) (d : Int) : Int := l.foldl min d

/-- Cost of the open path prev -> l0 -> l1 -> ... -> last (no closing edge). -/
def pathCost (g : Graph) : Nat → List Nat → Int
  | _, [] => 0
  | prev, x :: xs => g.w prev x + pathCost g x xs

/-- Cost of the edges prev -> l0 -> ... -> last -> first: helper closing the
cycle back to a designated first vertex. -/
def cycleFrom (g : Graph) (first : Nat) : Nat → List Nat → Int
  | prev, [] => g.w prev first
  | prev, x :: xs => g.w prev x + cycleFrom g first x xs

/-- Modelled from the spec: TSPUtils::calculateTargetFunctionValue (the
3-argument overload used by bruteForce; TSPUtils is not under src/). Per spec
section 4.1 it is the total cycle cost of a permutation of the non-origin
vertices: the n edge weights including origin -> first and last -> origin,
with the fixed origin n-1. -/
def calculateTargetFunctionValue (g : Graph) (perm : List Nat) : Int :=
  cycleFrom g (g.n - 1) (g.n - 1) perm

/-- Modelled from the spec: TSPUtils::calculateTargetFunctionValue (the
2-argument overload used by branchAndBound on the natural permutation of all
n vertices; TSPUtils is not under src/). Per spec sections 3 and 8 it is the
cost of the closed cycle visiting the given full vertex ordering. -/
def calculateTargetFunctionValueFull (g : Graph) (perm : List Nat) : Int :=
  match perm with
  | [] => 0
  | x :: xs => cycleFrom g x x xs

/-- All tours of the instance: the permutations of the n-1 non-origin
vertices 0..n-2 (the origin n-1 is fixed). List.permutations' is used as the
executable enumeration; it is a permutation of List.permutations. -/
def allPerms (g : Graph) : List (List Nat) := (List.range (g.n - 1)).permutations'

/-- The exact optimum: minimum cycle cost over all tours. The start value of
the fold is itself a tour cost (the natural permutation), so this is the
genuine minimum, stated order-independently. -/
def optCost (g : Graph) : Int :=
  listMinD ((allPerms g).map (calculateTargetFunctionValue g))
    (calculateTargetFunctionValue g (List.range (g.n - 1)))

/-- The vertices 0..m-1 contained in a bitmask ("1 bit denotes that the vertex
is in the set" in the source's comment). -/
def maskList (m S : Nat) : List Nat := (List.range m).filter (fun k => S.testBit k)

/-- Mathematical value of the Held-Karp state dp[j][S]: minimum cost of a path
from the origin n-1 through exactly the vertex set S (bitmask over 0..n-2)
ending at j, INT_MAX when no such path exists. -/
def minPathCost (g : Graph) (S j : Nat) : Int :=
  listMinD
    (((maskList (g.n - 1) S).permutations'.filter
        (fun l => l.getLast? = some j)).map (pathCost g (g.n - 1)))
    intMax

/-- Initial memo table of dynamicProgrammingHeldKarp (lines 76-86): rows
0..n-2 are filled with the -1 sentinel and then the singleton base case
table[j][1 << j] = w(n-1, j); row n-1 keeps its value-initialized 0 and is
never read. -/
def initTable (g : Graph) : Nat → Nat → Int := fun j S =>
  if j < g.n - 1 then (if S = 2 ^ j then g.w (g.n - 1) j else -1) else 0

/-- The subset with the end vertex removed: the source's
partialPathSet & ~(1u << endVertexIdx) (line 116). Clearing a bit of a
natural number is subtracting its power of two when the bit is set; the
bitwise characterization is proved below (dpSubset_testBit). -/
def dpSubset (S j : Nat) : Nat := if S.testBit j then S - 2 ^ j else S

/-- Functional update of one cell of the memo table (line 131's store). -/
def tableSet (tbl : Nat → Nat → Int) (j S : Nat) (v : Int) : Nat → Nat → Int :=
  fun j2 S2 => if j2 = j ∧ S2 = S then v else tbl j2 S2

/-- Invariant of the Held-Karp memo table: the singleton base cells are
filled, and every filled cell of a live row holds the exact minimum partial
path cost of its state. -/
def TableInv (g : Graph) (tbl : Nat → Nat → Int) : Prop :=
  (∀ j, j < g.n - 1 → tbl j (2 ^ j) ≠ -1) ∧
  (∀ j S, j < g.n - 1 → tbl j S ≠ -1 → tbl j S = minPathCost g S j)

/-- TSPAlgorithms::dpGetPartialPathCost (lines 104-134), with the mutable memo
table passed explicitly and a fuel counter standing for the call stack (the
recursion is proved to need at most n nested calls, see the termination
theorem). Returns the state's cost together with the updated table. -/
def dpGetPartialPathCost (g : Graph) :
    Nat → Nat → Nat → (Nat → Nat → Int) → Option (Int × (Nat → Nat → Int))
  | 0, _, _, _ => none
  | fuel + 1, S, j, tbl =>
    if tbl j S = -1 then
      match (List.range (g.n - 1)).foldl
          (fun acc k =>
            match acc with
            | none => none
            | some (best, t) =>
              if (dpSubset S j).testBit k then
                match dpGetPartialPathCost g fuel (dpSubset S j) k t with
                | none => none
                | some (v, t2) =>
                  some (if v + g.w k j < best then v + g.w k j else best, t2)
              else some (best, t))
          (some (intMax, tbl)) with
      | none => none
      | some (best, t) => some (best, tableSet t j S best)
    else some (tbl j S, tbl)

/-- The body of dpGetPartialPathCost's vertexIdx loop (lines 117-129), as a
named function so that proofs can state the loop as a fold of it; it is
definitionally the lambda inside dpGetPartialPathCost. -/
def dpStep (g : Graph) (fuel S j : Nat)
    (acc : Option (Int × (Nat → Nat → Int))) (k : Nat) :
    Option (Int × (Nat → Nat → Int)) :=
  match acc with
  | none => none
  | some (best, t) =>
    if (dpSubset S j).testBit k then
      match dpGetPartialPathCost g fuel (dpSubset S j) k t with
      | none => none
      | some (v, t2) =>
        some (if v + g.w k j < best then v + g.w k j else best, t2)
    else some (best, t)

/-- The body of dynamicProgrammingHeldKarp's endVertexIdx loop
(lines 92-100), threading the memo table. -/
def hkStep (g : Graph) (acc : Option (Int × (Nat → Nat → Int))) (j : Nat) :
    Option (Int × (Nat → Nat → Int)) :=
  match acc with
  | none => none
  | some (best, t) =>
    match dpGetPartialPathCost g g.n (2 ^ (g.n - 1) - 1) j t with
    | none => none
    | some (v, t2) =>
      some (if v + g.w j (g.n - 1) < best then v + g.w j (g.n - 1) else best, t2)

/-- TSPAlgorithms::dynamicProgrammingHeldKarp (lines 63-102). The fold is the
endVertexIdx loop threading the memo table; fuel n is proved sufficient, so
the none fallback (returning 0) is dead code. -/
def dynamicProgrammingHeldKarp (g : Graph) : Int :=
  match (List.range (g.n - 1)).foldl (hkStep g) (some (intMax, initTable g)) with
  | none => 0
  | some (best, _) => best

/-- Modelled from the spec: the branch-and-bound node record (the BBNodeData
header is not under src/). Per spec section 3 a node owns its working cost
matrix, a lower bound, the count of fixed edges, and the designated
highest-regret zero cell; none for the latter models the C++ end() iterator
of an empty zero list. -/
structure BBNodeData where
  size : Nat
  distances : Nat → Nat → Int
  lowerBound : Int
  edgesOnPath : Nat
  highestZero : Option ((Nat × Nat) × (Int × Int))

/-- Root matrix of branchAndBound (lines 139-147). The diagonal INT_MAX
assignment of line 143 is immediately overwritten by the unconditional copy
of line 145, so every entry, the diagonal included, is the raw edge weight. -/
def bbInitDistances (g : Graph) : Nat → Nat → Int := fun i j => g.w i j

/-- std::min_element over row i (line 195): minimum of the n row entries. -/
def rowMinOf (n : Nat) (M : Nat → Nat → Int) (i : Nat) : Int :=
  listMinD ((List.range n).map (M i)) (M i 0)

/-- The column minimum scan of lines 213-218: minimum of the n column
entries. -/
def colMinOf (n : Nat) (M : Nat → Nat → Int) (j : Nat) : Int :=
  listMinD ((List.range n).map (fun i => M i j)) (M 0 j)

/-- Closed form of one row of the reduction: the matrix after the row pass,
expressed pointwise from the base matrix (spec-side description used to
reason about the fold). -/
def rowRed (n : Nat) (M : Nat → Nat → Int) : Nat → Nat → Int := fun i j =>
  if rowMinOf n M i = intMax ∨ M i j = intMax then M i j
  else M i j - rowMinOf n M i

/-- Bound contribution of one row of the reduction. -/
def rowContrib (n : Nat) (M : Nat → Nat → Int) (i : Nat) : Int :=
  if rowMinOf n M i = intMax then 0 else rowMinOf n M i

/-- Bound contribution of one column of the reduction (applied to the
row-reduced matrix). -/
def colContrib (n : Nat) (M : Nat → Nat → Int) (j : Nat) : Int :=
  if colMinOf n M j = intMax ∨ colMinOf n M j = 0 then 0 else colMinOf n M j

/-- One row of the reduction (lines 194-209): skip an all-INT_MAX row,
otherwise subtract the row minimum from every finite entry, record the
resulting zero cells in column order, and add the minimum to the bound. -/
def bbRowReduceStep (n : Nat) :
    ((Nat → Nat → Int) × Int × List (Nat × Nat)) → Nat →
    ((Nat → Nat → Int) × Int × List (Nat × Nat))
  | (M, lb, zs), i =>
    if rowMinOf n M i = intMax then (M, lb, zs)
    else
      (fun a b => if a = i ∧ M a b ≠ intMax then M a b - rowMinOf n M i else M a b,
       lb + rowMinOf n M i,
       zs ++ ((List.range n).filter
          (fun j => M i j ≠ intMax ∧ M i j - rowMinOf n M i = 0)).map (fun j => (i, j)))

/-- One column of the reduction (lines 212-232): skip a zero or INT_MAX
column minimum, otherwise subtract it from every finite entry of the column,
record the new zero cells in row order, and add it to the bound. -/
def bbColReduceStep (n : Nat) :
    ((Nat → Nat → Int) × Int × List (Nat × Nat)) → Nat →
    ((Nat → Nat → Int) × Int × List (Nat × Nat))
  | (M, lb, zs), j =>
    if colMinOf n M j = intMax ∨ colMinOf n M j = 0 then (M, lb, zs)
    else
      (fun a b => if b = j ∧ M a b ≠ intMax then M a b - colMinOf n M j else M a b,
       lb + colMinOf n M j,
       zs ++ ((List.range n).filter
          (fun i => M i j ≠ intMax ∧ M i j - colMinOf n M j = 0)).map (fun i => (i, j)))

/-- The full row-then-column reduction of
bbCalculateLowerBoundAndDesignateHighestZeroPenalty (lines 189-232),
returning the reduced matrix, the accumulated lower bound and the recorded
zero cells. -/
def bbReduce (n : Nat) (M : Nat → Nat → Int) (lb : Int) :
    (Nat → Nat → Int) × Int × List (Nat × Nat) :=
  (List.range n).foldl (bbColReduceStep n)
    ((List.range n).foldl (bbRowReduceStep n) (M, lb, []))

/-- Penalty of a zero cell (lines 235-250): minimum of the other entries of
its row and of its column, each starting from INT_MAX. -/
def bbPenaltyOf (n : Nat) (M : Nat → Nat → Int) (z : Nat × Nat) : Int × Int :=
  (listMinD (((List.range n).filter (fun j2 => j2 ≠ z.2)).map (M z.1)) intMax,
   listMinD (((List.range n).filter (fun i2 => i2 ≠ z.1)).map (fun i2 => M i2 z.2)) intMax)

/-- std::max_element over the zero list by penalty sum (lines 252-257): the
first element no later element strictly exceeds; none models the end()
iterator of an empty list, whose dereference at line 258 would be undefined. -/
def maxByPenalty :
    List ((Nat × Nat) × (Int × Int)) → Option ((Nat × Nat) × (Int × Int))
  | [] => none
  | x :: xs =>
    some (xs.foldl
      (fun best c => if best.2.1 + best.2.2 < c.2.1 + c.2.2 then c else best) x)

/-- TSPAlgorithms::bbCalculateLowerBoundAndDesignateHighestZeroPenalty
(lines 189-260): reduce the node's matrix, accumulate the lower bound,
compute the penalties of the recorded zero cells and designate the
highest-penalty one; none when the zero list is empty (the C++ would
dereference end()). -/
def bbCalculateLowerBoundAndDesignateHighestZeroPenalty
    (nd : BBNodeData) : Option BBNodeData :=
  let r := bbReduce nd.size nd.distances nd.lowerBound
  match maxByPenalty (r.2.2.map (fun z => (z, bbPenaltyOf nd.size r.1 z))) with
  | none => none
  | some hz =>
    some { nd with distances := r.1, lowerBound := r.2.1, highestZero := some hz }

/-- TSPAlgorithms::bbCreateLeftNodeData (lines 262-264): the body is empty. -/
def bbCreateLeftNodeData (nd : BBNodeData) : BBNodeData := nd

/-- TSPAlgorithms::bbCreateRightNodeData (lines 266-268): the body is empty. -/
def bbCreateRightNodeData (nd : BBNodeData) : BBNodeData := nd

/-- TSPAlgorithms::bbGetCycleCost (lines 270-272): the body returns 0. -/
def bbGetCycleCost (nd : BBNodeData) : Int := 0

/-- The priority-queue comparator of lines 149-155: lhs sorts before rhs when
its lower bound is larger, ties broken toward fewer fixed edges, so the top
element has the smallest bound and, among those, the most fixed edges. -/
def bbNodeComparator (lhs rhs : BBNodeData) : Bool :=
  if lhs.lowerBound = rhs.lowerBound then
    decide (lhs.edgesOnPath < rhs.edgesOnPath)
  else decide (lhs.lowerBound > rhs.lowerBound)

/-- Index of the top element of the queue: scan keeping the current best and
replacing it only when a later element is strictly greater under the
comparator. -/
def pqTopIdxAux : List BBNodeData → Nat → Nat → BBNodeData → Nat
  | [], _, bi, _ => bi
  | c :: rest, i, bi, b =>
    if bbNodeComparator b c then pqTopIdxAux rest (i + 1) i c
    else pqTopIdxAux rest (i + 1) bi b

/-- Modelled from the spec: std::priority_queue top-and-pop over the live
nodes (spec section 3's search frontier). The C++ heap's choice among
comparator-equivalent elements is implementation defined; this model returns
the earliest pushed one. none models top() on an empty queue, which would be
undefined. -/
def pqPop (q : List BBNodeData) : Option (BBNodeData × List BBNodeData) :=
  match q with
  | [] => none
  | x :: xs =>
    let bi := pqTopIdxAux xs 1 0 x
    match q.get? bi with
    | none => none
    | some t => some (t, q.eraseIdx bi)

/-- The while loop of branchAndBound (lines 167-185) with fuel, also
returning the ghost trace of the incumbent's value after each executed
iteration. Pushes append at the queue's tail. -/
def bbLoop (g : Graph) : Nat → List BBNodeData → Int → Option (Int × List Int)
  | 0, _, _ => none
  | fuel + 1, q, ub =>
    match pqPop q with
    | none => none
    | some (t, rest) =>
      if t.lowerBound < ub then
        let leftNode := bbCreateLeftNodeData t
        let q1 := if leftNode.lowerBound < ub then rest ++ [leftNode] else rest
        let rightNode := bbCreateRightNodeData t
        let q2 := if rightNode.lowerBound < ub then q1 ++ [rightNode] else q1
        let ub2 := if rightNode.edgesOnPath = g.n - 2 then bbGetCycleCost rightNode else ub
        match bbLoop g fuel q2 ub2 with
        | none => none
        | some (r, tr) => some (r, ub2 :: tr)
      else some (ub, [])

/-- TSPAlgorithms::branchAndBound (lines 136-187) with fuel for the search
loop: root construction, initial incumbent from the natural permutation of
all n vertices, root reduction, then the loop. -/
def branchAndBound (g : Graph) (fuel : Nat) : Option Int :=
  let root0 : BBNodeData :=
    { size := g.n, distances := bbInitDistances g, lowerBound := 0,
      edgesOnPath := 0, highestZero := none }
  let ub := calculateTargetFunctionValueFull g (List.range g.n)
  match bbCalculateLowerBoundAndDesignateHighestZeroPenalty root0 with
  | none => none
  | some root => (bbLoop g fuel [root] ub).map (fun r => r.1)

/-- Ghost companion of branchAndBound: the incumbent value after each
executed loop iteration. -/
def branchAndBoundUbTrace (g : Graph) (fuel : Nat) : Option (List Int) :=
  let root0 : BBNodeData :=
    { size := g.n, distances := bbInitDistances g, lowerBound := 0,
      edgesOnPath := 0, highestZero := none }
  let ub := calculateTargetFunctionValueFull g (List.range g.n)
  match bbCalculateLowerBoundAndDesignateHighestZeroPenalty root0 with
  | none => none
  | some root => (bbLoop g fuel [root] ub).map (fun r => r.2)

/-- State of the bruteForce loop (lines 11-27): the current permutation, the
swap counters, the stack slot index, the running minimum, and a ghost list of
every permutation whose cycle cost has been evaluated (most recent first). -/
structure BFState where
  perm : List Nat
  counters : List Nat
  slot : Nat
  best : Int
  visited : List (List Nat)

/-- std::swap of two vector elements through operator[]: none on an
out-of-bounds index. -/
def listSwap (l : List Nat) (a b : Nat) : Option (List Nat) :=
  match l.get? a, l.get? b with
  | some x, some y => some ((l.set a y).set b x)
  | _, _ => none

/-- One iteration of bruteForce's do-while body (lines 28-58): either perform
the next Heap swap at the current slot, evaluate the new permutation and
reset the slot, or reset the exhausted counter and move to the next slot.
none models the out-of-bounds operator[] access that the source performs
when permutationSize = 1. -/
def bruteForceStep (g : Graph) (st : BFState) : Option BFState :=
  match st.counters.get? st.slot with
  | none => none
  | some c =>
    if c ≤ st.slot then
      let swapIndex := if (st.slot + 1) % 2 = 1 then 0 else c - 1
      match listSwap st.perm st.slot swapIndex with
      | none => none
      | some p2 =>
        let cost := calculateTargetFunctionValue g p2
        some { perm := p2, counters := st.counters.set st.slot (c + 1), slot := 1,
               best := if cost < st.best then cost else st.best,
               visited := p2 :: st.visited }
    else
      some { st with counters := st.counters.set st.slot 1, slot := st.slot + 1 }

/-- The do-while loop of bruteForce: run the body, then continue while
(slot + 1) <= permutationSize. -/
def bruteForceLoop (g : Graph) (m : Nat) : Nat → BFState → Option BFState
  | 0, _ => none
  | fuel + 1, st =>
    match bruteForceStep g st with
    | none => none
    | some st2 =>
      if st2.slot + 1 ≤ m then bruteForceLoop g m fuel st2 else some st2

/-- Fuel sufficient for the bruteForce loop on m elements (proved so for
m >= 2): the loop performs m! - 1 swap iterations and fewer than m! * m
counter-reset iterations. -/
def bfFuel (m : Nat) : Nat := (m + 1).factorial * (m + 2)

/-- TSPAlgorithms::bruteForce (lines 3-61): natural start permutation of the
m = n-1 non-origin vertices, its cost as initial best, then the counter-driven
minimal-swap loop. The full final state, with the ghost visited list. -/
def bruteForceRun (g : Graph) : Option BFState :=
  let m := g.n - 1
  let p0 := List.range m
  bruteForceLoop g m (bfFuel m)
    { perm := p0, counters := List.replicate m 1, slot := 1,
      best := calculateTargetFunctionValue g p0, visited := [p0] }

/-- The int bruteForce returns: the final running minimum. -/
def bruteForce (g : Graph) : Option Int := (bruteForceRun g).map (fun s => s.best)

/-- Concrete 2-vertex instance with unit off-diagonal weights and zero
diagonal. -/
def g2 : Graph := ⟨2, fun i j => if i = j then 0 else 1⟩

/-- The spec section 8 concrete 4-vertex scenario (origin = vertex 3). -/
def g4 : Graph :=
  ⟨4, fun i j =>
    if i = j then 0
    else if i = 0 then (if j = 1 then 10 else if j = 2 then 15 else 20)
    else if i = 1 then (if j = 0 then 10 else if j = 2 then 35 else 25)
    else if i = 2 then (if j = 0 then 15 else if j = 1 then 35 else 30)
    else (if j = 0 then 20 else if j = 1 then 25 else 30)⟩

/-! ## Specification-side combinatorics of the bruteForce permutation
generator (Heap's algorithm).  The functions below replay the swap schedule
of the do-while loop (lines 28-58) one recursion level at a time, so the
loop can be related to them step by step and their output analysed in
closed form. -/

/-- Total std::swap of the list entries at positions i and j (every use in
this development is in range; out of range the list is returned changed at
most at the in-range position). -/
def swapT (l : List Nat) (i j : Nat) : List Nat :=
  (l.set i (l.getD j 0)).set j (l.getD i 0)

/-- Exchange the first and last entries of a list. -/
def swapEndsT (l : List Nat) : List Nat :=
  match l with
  | [] => []
  | x :: xs =>
    match xs.getLast? with
    | none => [x]
    | some y => y :: (xs.dropLast ++ [x])

/-- Index rearrangement used to describe the net effect of a complete run of
the generator at an even array size. -/
def vEven (a : List Nat) : List Nat := a.getLastD 0 :: swapEndsT a.dropLast

/-- Net permutation effect of a complete generator run on an array of size s
(proved below): for odd s the first and last entries are exchanged, for even
s the array is rearranged through the vEven window. -/
def heapNetC (s : Nat) (a : List Nat) : List Nat :=
  if s % 2 = 1 then swapEndsT a
  else swapEndsT ((vEven a).take (s - 1)) ++ (vEven a).drop (s - 1)

/-- Heap's swap-partner rule at stack slot L with counter value c
(lines 33-37): position 0 when the slot position L+1 is odd, else c-1. -/
def heapSwapIdx (L c : Nat) : Nat := if (L + 1) % 2 = 1 then 0 else c - 1

/-- The remaining iterations of the generator at stack slot L when the slot
counter holds c and rem swaps are still to be performed: each iteration
swaps positions L and heapSwapIdx L c, then runs the full sub-generator
`sub` on the result.  Returns the final array and the chronological list of
arrays produced by the swaps at slot L and inside the sub-runs. -/
def heapLevelAux (sub : List Nat → List Nat × List (List Nat)) (L : Nat) :
    Nat → Nat → List Nat → List Nat × List (List Nat)
  | 0, _, p => (p, [])
  | rem + 1, c, p =>
    let p1 := swapT p L (heapSwapIdx L c)
    let s := sub p1
    let r := heapLevelAux sub L rem (c + 1) s.1
    (r.1, p1 :: (s.2 ++ r.2))

/-- A complete generator run at stack slot L starting from a fresh slot
state (all counters 1): the sub-run at slot L-1, then L iterations of
swap-and-sub-run at slot L.  Mirrors one full excursion of the do-while
loop from slot 1 up to the reset of slot L. -/
def heapFull : Nat → List Nat → List Nat × List (List Nat)
  | 0, p => (p, [])
  | L + 1, p =>
    let s := heapFull L p
    let r := heapLevelAux (heapFull L) (L + 1) (L + 1) 1 s.1
    (r.1, s.2 ++ r.2)

/-- Position source map of one swap-and-sub-run step at an even slot L
(odd array size L+1): entry j of the new array is entry srcOdd L j of the
old one. -/
def srcOdd (L j : Nat) : Nat :=
  if L = 2 then (if j = 0 then 2 else if j = 1 then 0 else 1)
  else if j = 0 then L
  else if j = 1 then L - 2
  else if j + 3 ≤ L then j - 1
  else if j = L - 2 then L - 1
  else if j = L - 1 then 0
  else L - 3

/-- Rearrange a list by an index source map: entry j of the result is entry
f j of the input. -/
def applyIdx (f : Nat → Nat) (a : List Nat) : List Nat :=
  (List.range a.length).map (fun j => a.getD (f j) 0)

/-- The orbit of position L under srcOdd L: the positions whose entries end
the array during the successive blocks of an odd-size generator run. -/
def orbitOdd (L : Nat) : List Nat :=
  if L = 2 then [2, 1, 0]
  else L :: (List.range' 1 (L - 3)).reverse ++ [L - 2, L - 1, 0]

/-- The prefix of the vEven window with index c removed, end-swapped on the
even-numbered blocks: the first L entries of block c of an even-size
generator run at slot L. -/
def evenBlockP (V : List Nat) (c : Nat) : List Nat :=
  if c % 2 = 0 then swapEndsT (V.take c ++ V.drop (c + 1)) else V.take c ++ V.drop (c + 1)

/-- Block c of a complete generator run at an odd slot L (even array size):
the array produced by the c-th swap at slot L. -/
def evenBlock (V : List Nat) (c : Nat) : List Nat := evenBlockP V c ++ (V.drop c).take 1

/-- Exact number of do-while iterations of a complete generator run at
stack slot L (sub-run, then L times a swap step plus a sub-run, then the
counter reset step). -/
def stepsL : Nat → Nat
  | 0 => 0
  | L + 1 => stepsL L + (L + 1) * (stepsL L + 1) + 1

/-- The running minimum of bruteForce (lines 46-50) accumulated over a list
of evaluated permutations. -/
def bfBest (g : Graph) (E : List (List Nat)) (b : Int) : Int :=
  E.foldl (fun acc q => if calculateTargetFunctionValue g q < acc
    then calculateTargetFunctionValue g q else acc) b

/-- The do-while continuation test (line 58): keep looping while
slot + 1 <= permutationSize, else return the state. -/
def bfAfter (g : Graph) (m fuel : Nat) (st : BFState) : Option BFState :=
  if st.slot + 1 ≤ m then bruteForceLoop g m fuel st else some st

/-- The loop state after a complete generator run at stack slot L: the net
array, untouched counters, slot L+1, the running minimum over the emitted
permutations and the emitted permutations prepended to the visited list. -/
def bfLevelState (g : Graph) (L : Nat) (p cnt : List Nat) (best : Int)
    (vis : List (List Nat)) : BFState :=
  { perm := (heapFull L p).1, counters := cnt, slot := L + 1,
    best := bfBest g (heapFull L p).2 best,
    visited := (heapFull L p).2.reverse ++ vis }

/-! ## Basic lemmas about the embedding's building blocks -/

theorem sub_two_pow_testBit (S j k : Nat) (h : S.testBit j = true) :
    (S - 2 ^ j).testBit k = (S.testBit k && !(decide (k = j))) := by
  have h1 : S / 2 ^ j % 2 = 1 := by
    have := Nat.testBit_to_div_mod (x := S) (i := j)
    rw [h] at this
    exact (decide_eq_true_iff).mp this.symm
  have hc : S / 2 ^ j = 2 * (S / 2 ^ (j + 1)) + 1 := by
    have hdd : S / 2 ^ j / 2 = S / 2 ^ (j + 1) := by
      rw [Nat.div_div_eq_div_mul, pow_succ]
    have := Nat.div_add_mod (S / 2 ^ j) 2
    omega
  have ha : S % 2 ^ j < 2 ^ j := Nat.mod_lt _ (Nat.two_pow_pos j)
  have hS : S = 2 ^ (j + 1) * (S / 2 ^ (j + 1)) + S % 2 ^ j + 2 ^ j := by
    have h2 := Nat.div_add_mod S (2 ^ j)
    rw [hc] at h2
    have h3 : 2 ^ (j + 1) * (S / 2 ^ (j + 1)) + S % 2 ^ j + 2 ^ j
        = 2 ^ j * (2 * (S / 2 ^ (j + 1)) + 1) + S % 2 ^ j := by
      rw [pow_succ]; ring
    rw [h3, h2]
  set a := S % 2 ^ j with ha_def
  set c := S / 2 ^ (j + 1) with hc_def
  have hsub : S - 2 ^ j = 2 ^ (j + 1) * c + a := by
    rw [hS]
    exact Nat.add_sub_cancel (2 ^ (j + 1) * c + a) (2 ^ j)
  rcases lt_trichotomy k j with hk | hk | hk
  · have hkj : decide (k = j) = false := by simp; omega
    rw [hsub, hkj]
    have hXk : (2 ^ (j + 1) * c + a) / 2 ^ k = a / 2 ^ k + c * 2 ^ (j + 1 - k) := by
      have hsplit : 2 ^ (j + 1) * c + a = a + 2 ^ k * (c * 2 ^ (j + 1 - k)) := by
        have : 2 ^ (j + 1) = 2 ^ k * 2 ^ (j + 1 - k) := by
          rw [← pow_add]
          congr 1
          omega
        rw [this]; ring
      rw [hsplit, Nat.add_mul_div_left _ _ (Nat.two_pow_pos k)]
    have hmod : (a / 2 ^ k + c * 2 ^ (j + 1 - k)) % 2 = a / 2 ^ k % 2 := by
      have h2 : 2 ^ (j + 1 - k) = 2 ^ (j - k) * 2 := by
        rw [← pow_succ]
        congr 1
        omega
      rw [h2, ← mul_assoc, Nat.add_mul_mod_self_right]
    have htb : (2 ^ (j + 1) * c + a).testBit k = a.testBit k := by
      rw [Nat.testBit_to_div_mod, Nat.testBit_to_div_mod, hXk, hmod]
    rw [htb]
    have : a.testBit k = S.testBit k := by
      rw [ha_def, Nat.testBit_mod_two_pow]
      simp [hk]
    simp [this]
  · subst hk
    have hXk : (2 ^ (k + 1) * c + a) / 2 ^ k = a / 2 ^ k + c * 2 := by
      have hsplit : 2 ^ (k + 1) * c + a = a + 2 ^ k * (c * 2) := by
        rw [pow_succ]; ring
      rw [hsplit, Nat.add_mul_div_left _ _ (Nat.two_pow_pos k)]
    have hz : a / 2 ^ k = 0 := Nat.div_eq_of_lt ha
    rw [hsub, Nat.testBit_to_div_mod, hXk, hz]
    simp [Nat.mul_mod_left]
  · have hkj : decide (k = j) = false := by simp; omega
    rw [hsub, hkj]
    have hXj1 : (2 ^ (j + 1) * c + a) / 2 ^ (j + 1) = c := by
      have hz : a / 2 ^ (j + 1) = 0 :=
        Nat.div_eq_of_lt (lt_trans ha (Nat.pow_lt_pow_succ one_lt_two))
      rw [Nat.mul_add_div (Nat.two_pow_pos (j + 1)), hz, Nat.add_zero]
    have hXk : (2 ^ (j + 1) * c + a) / 2 ^ k = c / 2 ^ (k - j - 1) := by
      have h2 : 2 ^ k = 2 ^ (j + 1) * 2 ^ (k - j - 1) := by
        rw [← pow_add]
        congr 1
        omega
      rw [h2, ← Nat.div_div_eq_div_mul, hXj1]
    have hright : S.testBit k = c.testBit (k - j - 1) := by
      have : c = S >>> (j + 1) := by
        rw [hc_def, Nat.shiftRight_eq_div_pow]
      rw [this, Nat.testBit_shiftRight]
      congr 1
      omega
    rw [Nat.testBit_to_div_mod, hXk, hright, Nat.testBit_to_div_mod]
    simp

theorem dpSubset_testBit (S j k : Nat) :
    (dpSubset S j).testBit k = (S.testBit k && !(decide (k = j))) := by
  unfold dpSubset
  by_cases h : S.testBit j
  · rw [if_pos h]
    exact sub_two_pow_testBit S j k h
  · rw [if_neg h]
    by_cases hk : k = j
    · subst hk
      simp [Bool.eq_false_iff.mpr h]
    · simp [hk]

theorem dpSubset_lt (S j : Nat) (h : S.testBit j = true) : dpSubset S j < S := by
  refine Nat.lt_of_testBit j ?_ h ?_
  · rw [dpSubset_testBit]
    simp
  · intro k hk
    rw [dpSubset_testBit]
    have : decide (k = j) = false := by simp; omega
    rw [this]
    simp

theorem listMinD_le_init (l : List Int) (d : Int) : listMinD l d ≤ d := by
  induction l generalizing d with
  | nil => exact le_refl d
  | cons x xs ih =>
    exact le_trans (ih (min d x)) (min_le_left d x)

theorem listMinD_le_mem (l : List Int) : ∀ (d x : Int), x ∈ l →
    listMinD l d ≤ x := by
  induction l with
  | nil => intro d x h; cases h
  | cons y ys ih =>
    intro d x h
    rcases List.mem_cons.mp h with h1 | h1
    · subst h1
      exact le_trans (listMinD_le_init ys (min d x)) (min_le_right d x)
    · exact ih (min d y) x h1

theorem listMinD_cases (l : List Int) (d : Int) :
    listMinD l d = d ∨ listMinD l d ∈ l := by
  induction l generalizing d with
  | nil => exact Or.inl rfl
  | cons x xs ih =>
    rcases ih (min d x) with h | h
    · rcases min_cases d x with ⟨he, _⟩ | ⟨he, _⟩
      · exact Or.inl (by rw [listMinD] at h ⊢; rw [List.foldl_cons, h, he])
      · refine Or.inr (List.mem_cons.mpr (Or.inl ?_))
        rw [listMinD] at h ⊢; rw [List.foldl_cons, h, he]
    · exact Or.inr (List.mem_cons.mpr (Or.inr h))

theorem le_listMinD (l : List Int) (d c : Int) (hd : c ≤ d)
    (h : ∀ x ∈ l, c ≤ x) : c ≤ listMinD l d := by
  rcases listMinD_cases l d with he | he
  · rw [he]; exact hd
  · exact h _ he

theorem listMinD_min_out (l : List Int) (d x : Int) :
    listMinD l (min d x) = min x (listMinD l d) := by
  induction l generalizing d with
  | nil =>
    rw [listMinD, listMinD, List.foldl_nil, List.foldl_nil, min_comm]
  | cons y ys ih =>
    rw [listMinD, listMinD, List.foldl_cons, List.foldl_cons]
    rw [show min (min d x) y = min (min d y) x by
      rw [min_assoc, min_comm x y, ← min_assoc]]
    exact ih (min d y)

theorem foldl_runMin_eq (f : α → Int) (l : List α) (d : Int) :
    l.foldl (fun b x => if f x < b then f x else b) d = listMinD (l.map f) d := by
  induction l generalizing d with
  | nil => rfl
  | cons x xs ih =>
    rw [List.foldl_cons, List.map_cons, listMinD, List.foldl_cons]
    have : (if f x < d then f x else d) = min d (f x) := by
      rcases lt_or_ge (f x) d with h | h
      · rw [if_pos h, min_eq_right (le_of_lt h)]
      · rw [if_neg (not_lt.mpr h), min_eq_left h]
    rw [this]
    exact ih (min d (f x))

/-! ## Claim C5: the root matrix diagonal -/

/-- C5: the claim says the branch-and-bound root matrix is the weight matrix
with an INT_MAX diagonal. In the source the diagonal assignment of line 143
is dead (line 145 overwrites it unconditionally), so the root matrix is the
raw weight matrix; on g2 the diagonal entry (0,0) is 0, not INT_MAX. -/
theorem bbRootMatrix_diagonal_is_raw_weight :
    (∀ (g : Graph) (i j : Nat), bbInitDistances g i j = g.w i j) ∧
    bbInitDistances g2 0 0 = 0 ∧ bbInitDistances g2 0 0 ≠ intMax := by
  refine ⟨fun g i j => rfl, rfl, by decide⟩

/-! ## Claim C1: the three solvers do not agree on the stubbed code -/

/-- C1: the claim says all three solvers agree with the optimum for every
well-formed instance with n <= 10. On the well-formed 2-vertex instance g2
the Held-Karp solver returns the true optimum 2, but branchAndBound, whose
branching helpers are empty stubs and whose bbGetCycleCost returns 0,
terminates with 0; bruteForce's loop performs an out-of-bounds vector access
at n = 2 (modelled as none). -/
theorem solvers_disagree_on_g2 :
    WellFormed g2 ∧ dynamicProgrammingHeldKarp g2 = 2 ∧ optCost g2 = 2 ∧
    branchAndBound g2 10 = some 0 ∧ bruteForce g2 = none := by
  refine ⟨by decide, by rfl, by decide, by rfl, by rfl⟩

/-! ## Claim C4: the n = 2 boundary -/

/-- C4: the claim says each solver returns w(0,1) + w(1,0) at n = 2. On g2
that value is 2: the Held-Karp solver does return it, but branchAndBound
returns 0 (stubbed bbGetCycleCost fires because edgesOnPath = 0 = n - 2) and
bruteForce reads stackCounters[1] on a vector of size 1 (modelled none). -/
theorem nTwo_boundary_fails_on_g2 :
    g2.w 0 1 + g2.w 1 0 = 2 ∧ dynamicProgrammingHeldKarp g2 = 2 ∧
    branchAndBound g2 10 = some 0 ∧ bruteForce g2 = none := by
  refine ⟨by decide, by rfl, by rfl, by rfl⟩

/-! ## Claim C7: the incumbent update -/

/-- C7: on g2 the incumbent starts at the natural-tour cost 2; in the single
executed iteration the right child has edgesOnPath = 0 = n - 2, and the code
overwrites the incumbent with the stub value bbGetCycleCost = 0 although
every tour of g2 costs exactly 2, i.e. no complete cycle cost improves on
the incumbent 2. The claimed guard "replaced only when a fully determined
node's complete cycle cost improves" is absent from the code. -/
theorem incumbent_replaced_without_improvement_on_g2 :
    calculateTargetFunctionValueFull g2 (List.range g2.n) = 2 ∧
    branchAndBoundUbTrace g2 10 = some [0] ∧
    (∀ l ∈ allPerms g2, calculateTargetFunctionValue g2 l = 2) := by
  refine ⟨by rfl, by rfl, by decide⟩

/-! ## Unfolding and fold lemmas for the Held-Karp recursion -/

theorem dpGet_succ (g : Graph) (fuel S j : Nat) (tbl : Nat → Nat → Int) :
    dpGetPartialPathCost g (fuel + 1) S j tbl =
      if tbl j S = -1 then
        match (List.range (g.n - 1)).foldl (dpStep g fuel S j) (some (intMax, tbl)) with
        | none => none
        | some (best, t) => some (best, tableSet t j S best)
      else some (tbl j S, tbl) := rfl

theorem dpGet_zero (g : Graph) (S j : Nat) (tbl : Nat → Nat → Int) :
    dpGetPartialPathCost g 0 S j tbl = none := rfl

theorem mem_maskList (m S k : Nat) :
    k ∈ maskList m S ↔ k < m ∧ S.testBit k = true := by
  unfold maskList
  rw [List.mem_filter, List.mem_range]

theorem maskList_nodup (m S : Nat) : (maskList m S).Nodup :=
  (List.nodup_range m).filter _

theorem maskList_dpSubset (m S j : Nat) :
    maskList m (dpSubset S j) =
      (maskList m S).filter (fun k => !(decide (k = j))) := by
  unfold maskList
  rw [List.filter_filter]
  apply List.filter_congr
  intro k _
  rw [dpSubset_testBit, Bool.and_comm]

theorem maskList_dpSubset_length (m S j : Nat) (hj : j ∈ maskList m S) :
    (maskList m (dpSubset S j)).length = (maskList m S).length - 1 := by
  rw [maskList_dpSubset]
  have hn := maskList_nodup m S
  have he : (maskList m S).filter (fun k => !(decide (k = j)))
      = (maskList m S).erase j := by
    rw [hn.erase_eq_filter]
    apply List.filter_congr
    intro k _
    by_cases hkj : k = j <;> simp [hkj]
  rw [he]
  exact List.length_erase_of_mem hj

/-- The memo table is only changed on cells holding the -1 sentinel: every
already-computed cell keeps its value through any dpGetPartialPathCost call. -/
theorem dpGet_preserves_table (g : Graph) : ∀ (fuel S j : Nat)
    (tbl : Nat → Nat → Int) (v : Int) (tbl2 : Nat → Nat → Int),
    dpGetPartialPathCost g fuel S j tbl = some (v, tbl2) →
    ∀ j2 S2, tbl j2 S2 ≠ -1 → tbl2 j2 S2 = tbl j2 S2 := by
  intro fuel
  induction fuel with
  | zero =>
    intro S j tbl v tbl2 h
    rw [dpGet_zero] at h
    cases h
  | succ fuel ih =>
    intro S j tbl v tbl2 h j2 S2 hne
    rw [dpGet_succ] at h
    by_cases htbl : tbl j S = -1
    · rw [if_pos htbl] at h
      rcases hfold : (List.range (g.n - 1)).foldl (dpStep g fuel S j)
          (some (intMax, tbl)) with _ | ⟨best, t⟩
      · rw [hfold] at h
        cases h
      · rw [hfold] at h
        simp only [Option.some.injEq, Prod.mk.injEq] at h
        obtain ⟨hv, ht2⟩ := h
        have hpres : ∀ (ks : List Nat) (b : Int) (t0 : Nat → Nat → Int)
            (b2 : Int) (t3 : Nat → Nat → Int),
            ks.foldl (dpStep g fuel S j) (some (b, t0)) = some (b2, t3) →
            ∀ j3 S3, t0 j3 S3 ≠ -1 → t3 j3 S3 = t0 j3 S3 := by
          intro ks
          induction ks with
          | nil =>
            intro b t0 b2 t3 hf j3 S3 hne3
            simp only [List.foldl_nil, Option.some.injEq, Prod.mk.injEq] at hf
            rw [← hf.2]
          | cons k ks ihk =>
            intro b t0 b2 t3 hf j3 S3 hne3
            rw [List.foldl_cons] at hf
            simp only [dpStep] at hf
            by_cases hbit : (dpSubset S j).testBit k
            · rw [if_pos hbit] at hf
              rcases hget : dpGetPartialPathCost g fuel (dpSubset S j) k t0
                  with _ | ⟨v0, t1⟩
              · rw [hget] at hf
                have : ∀ (ks2 : List Nat),
                    ks2.foldl (dpStep g fuel S j)
                      (none : Option (Int × (Nat → Nat → Int))) = none := by
                  intro ks2
                  induction ks2 with
                  | nil => rfl
                  | cons a as iha => rw [List.foldl_cons]; exact iha
                rw [this ks] at hf
                cases hf
              · rw [hget] at hf
                have h1 : t1 j3 S3 = t0 j3 S3 := ih (dpSubset S j) k t0 v0 t1 hget j3 S3 hne3
                have h2 : t3 j3 S3 = t1 j3 S3 := by
                  refine ihk _ t1 b2 t3 hf j3 S3 ?_
                  rw [h1]
                  exact hne3
                rw [h2, h1]
            · rw [if_neg hbit] at hf
              exact ihk b t0 b2 t3 hf j3 S3 hne3
        have htS : t j2 S2 = tbl j2 S2 :=
          hpres (List.range (g.n - 1)) intMax tbl best t hfold j2 S2 hne
        rw [← ht2]
        unfold tableSet
        have : ¬(j2 = j ∧ S2 = S) := by
          rintro ⟨rfl, rfl⟩
          exact hne htbl
        rw [if_neg this]
        exact htS
    · rw [if_neg htbl] at h
      simp only [Option.some.injEq, Prod.mk.injEq] at h
      rw [← h.2]

/-! ## Claim C8: memoization writes each state at most once -/

/-- C8: the memo table invariant of dpGetPartialPathCost: a call never
changes an already-computed cell (a cell is written only while it holds -1);
when the queried state is already cached the call returns the cached value
and leaves the table untouched; and re-solving the same instance returns an
identical result (the embedding is a pure function of the graph). -/
theorem heldKarp_memo_write_once (g : Graph) (fuel S j : Nat)
    (tbl : Nat → Nat → Int) (v : Int) (tbl2 : Nat → Nat → Int)
    (h : dpGetPartialPathCost g fuel S j tbl = some (v, tbl2)) :
    (∀ j2 S2, tbl j2 S2 ≠ -1 → tbl2 j2 S2 = tbl j2 S2) ∧
    (tbl j S ≠ -1 → v = tbl j S ∧ tbl2 = tbl) ∧
    dynamicProgrammingHeldKarp g = dynamicProgrammingHeldKarp g := by
  refine ⟨dpGet_preserves_table g fuel S j tbl v tbl2 h, ?_, rfl⟩
  intro hne
  cases fuel with
  | zero =>
    rw [dpGet_zero] at h
    cases h
  | succ fuel =>
    rw [dpGet_succ, if_neg hne] at h
    simp only [Option.some.injEq, Prod.mk.injEq] at h
    exact ⟨h.1.symm, h.2.symm⟩

theorem heldKarp_memo_write_once_witness : (1 : Int) = initTable g2 0 1 :=
  ((heldKarp_memo_write_once g2 2 1 0 (initTable g2) 1 (initTable g2)
    (by rfl)).2.1 (by decide)).1

/-! ## Claim C9: termination of the Held-Karp recursion -/

theorem dpFold_none (g : Graph) (fuel S j : Nat) : ∀ (ks : List Nat),
    ks.foldl (dpStep g fuel S j) (none : Option (Int × (Nat → Nat → Int))) = none := by
  intro ks
  induction ks with
  | nil => rfl
  | cons a as iha => rw [List.foldl_cons]; exact iha

theorem dpFold_isSome (g : Graph) (fuel S j : Nat) : ∀ (ks : List Nat),
    (∀ k t, k ∈ ks → (dpSubset S j).testBit k = true →
      (dpGetPartialPathCost g fuel (dpSubset S j) k t).isSome = true) →
    ∀ (b : Int) (t : Nat → Nat → Int),
      ((ks.foldl (dpStep g fuel S j) (some (b, t))).isSome) = true := by
  intro ks
  induction ks with
  | nil => intro _ b t; rfl
  | cons k ks ih =>
    intro H b t
    rw [List.foldl_cons]
    simp only [dpStep]
    by_cases hbit : (dpSubset S j).testBit k
    · rw [if_pos hbit]
      rcases hget : dpGetPartialPathCost g fuel (dpSubset S j) k t with _ | ⟨v, t2⟩
      · have hsome := H k t (List.mem_cons_self k ks) hbit
        rw [hget] at hsome
        cases hsome
      · exact ih (fun k2 t3 hk2 => H k2 t3 (List.mem_cons_of_mem _ hk2)) _ t2
    · rw [if_neg hbit]
      exact ih (fun k2 t3 hk2 => H k2 t3 (List.mem_cons_of_mem _ hk2)) b t

/-- Fuel covering the subset size is enough for dpGetPartialPathCost to
return a value: the recursion depth is bounded by the cardinality of the
go-through set, which shrinks by one at each nested call. -/
theorem dpGet_isSome_of_fuel (g : Graph) : ∀ (fuel S j : Nat)
    (tbl : Nat → Nat → Int), j < g.n - 1 → S.testBit j = true →
    (maskList (g.n - 1) S).length ≤ fuel →
    (dpGetPartialPathCost g fuel S j tbl).isSome = true := by
  intro fuel
  induction fuel with
  | zero =>
    intro S j tbl hj hbit hlen
    have hjm : j ∈ maskList (g.n - 1) S := (mem_maskList _ _ _).mpr ⟨hj, hbit⟩
    have hpos : 0 < (maskList (g.n - 1) S).length :=
      List.length_pos.mpr (List.ne_nil_of_mem hjm)
    omega
  | succ fuel ih =>
    intro S j tbl hj hbit hlen
    rw [dpGet_succ]
    by_cases htbl : tbl j S = -1
    · rw [if_pos htbl]
      have hjm : j ∈ maskList (g.n - 1) S := (mem_maskList _ _ _).mpr ⟨hj, hbit⟩
      have hfold := dpFold_isSome g fuel S j (List.range (g.n - 1))
        (fun k t hk hbitk => by
          refine ih (dpSubset S j) k t (List.mem_range.mp hk) hbitk ?_
          rw [maskList_dpSubset_length _ _ _ hjm]
          omega)
        intMax tbl
      rcases hfoldr : (List.range (g.n - 1)).foldl (dpStep g fuel S j)
          (some (intMax, tbl)) with _ | ⟨best, t⟩
      · rw [hfoldr] at hfold
        cases hfold
      · rfl
    · rw [if_neg htbl]
      rfl

/-- C9: the recursion of dpGetPartialPathCost terminates. Each recursive
call removes the end vertex from the subset, strictly shrinking the bitmask;
call-stack fuel covering the subset's cardinality always suffices (so the
none fuel-exhaustion branch of the embedding is unreachable from the
top-level calls, whose fuel n exceeds the full set's size n-1); and a
singleton subset is answered from the pre-filled base-case cell without any
recursion, leaving the table untouched. -/
theorem heldKarp_recursion_terminates (g : Graph) (hwf : WellFormed g) :
    (∀ S j, S.testBit j = true → dpSubset S j < S) ∧
    (∀ fuel S j tbl, j < g.n - 1 → S.testBit j = true →
      (maskList (g.n - 1) S).length ≤ fuel →
      (dpGetPartialPathCost g fuel S j tbl).isSome = true) ∧
    (∀ j fuel, j < g.n - 1 →
      dpGetPartialPathCost g (fuel + 1) (2 ^ j) j (initTable g) =
        some (g.w (g.n - 1) j, initTable g)) := by
  refine ⟨fun S j h => dpSubset_lt S j h,
    fun fuel S j tbl hj hbit hlen => dpGet_isSome_of_fuel g fuel S j tbl hj hbit hlen,
    ?_⟩
  intro j fuel hj
  have hcell : initTable g j (2 ^ j) = g.w (g.n - 1) j := by
    unfold initTable
    rw [if_pos hj, if_pos rfl]
  have hge : 0 ≤ g.w (g.n - 1) j := by
    have h2 := hwf.1
    exact (hwf.2 (g.n - 1) (by omega) j (by omega) (by omega)).1
  have hne : initTable g j (2 ^ j) ≠ -1 := by
    rw [hcell]
    intro hc
    rw [hc] at hge
    norm_num at hge
  rw [dpGet_succ, if_neg hne, hcell]

theorem heldKarp_recursion_terminates_witness :
    dpSubset 3 0 < 3 ∧
    (dpGetPartialPathCost g2 1 1 0 (initTable g2)).isSome = true ∧
    dpGetPartialPathCost g2 1 (2 ^ 0) 0 (initTable g2) =
      some (g2.w 1 0, initTable g2) := by
  have h := heldKarp_recursion_terminates g2 (by decide)
  exact ⟨h.1 3 0 (by decide),
    h.2.1 1 1 0 (initTable g2) (by decide) (by decide) (by decide),
    h.2.2 0 0 (by decide)⟩

/-! ## Claim C10: the root zero list is non-empty -/

theorem bbRowReduceStep_front (n : Nat) (M : Nat → Nat → Int) (lb : Int)
    (zs : List (Nat × Nat)) (i : Nat) :
    zs <+: (bbRowReduceStep n (M, lb, zs) i).2.2 := by
  simp only [bbRowReduceStep]
  by_cases h : rowMinOf n M i = intMax
  · rw [if_pos h]
  · rw [if_neg h]
    exact List.prefix_append _ _

theorem bbColReduceStep_front (n : Nat) (M : Nat → Nat → Int) (lb : Int)
    (zs : List (Nat × Nat)) (j : Nat) :
    zs <+: (bbColReduceStep n (M, lb, zs) j).2.2 := by
  simp only [bbColReduceStep]
  by_cases h : colMinOf n M j = intMax ∨ colMinOf n M j = 0
  · rw [if_pos h]
  · rw [if_neg h]
    exact List.prefix_append _ _

theorem bbRowFold_front (n : Nat) : ∀ (L : List Nat)
    (st : (Nat → Nat → Int) × Int × List (Nat × Nat)),
    st.2.2 <+: (L.foldl (bbRowReduceStep n) st).2.2 := by
  intro L
  induction L with
  | nil => intro st; exact List.prefix_refl _
  | cons i L ih =>
    intro st
    obtain ⟨M, lb, zs⟩ := st
    rw [List.foldl_cons]
    exact (bbRowReduceStep_front n M lb zs i).trans (ih _)

theorem bbColFold_front (n : Nat) : ∀ (L : List Nat)
    (st : (Nat → Nat → Int) × Int × List (Nat × Nat)),
    st.2.2 <+: (L.foldl (bbColReduceStep n) st).2.2 := by
  intro L
  induction L with
  | nil => intro st; exact List.prefix_refl _
  | cons j L ih =>
    intro st
    obtain ⟨M, lb, zs⟩ := st
    rw [List.foldl_cons]
    exact (bbColReduceStep_front n M lb zs j).trans (ih _)

/-- The row minimum is attained at some column of the row. -/
theorem rowMinOf_attained (n : Nat) (M : Nat → Nat → Int) (i : Nat)
    (hn : 1 ≤ n) : ∃ j, j ∈ List.range n ∧ M i j = rowMinOf n M i := by
  unfold rowMinOf
  rcases listMinD_cases ((List.range n).map (M i)) (M i 0) with h | h
  · exact ⟨0, List.mem_range.mpr (by omega), h.symm⟩
  · rcases List.mem_map.mp h with ⟨j, hj, hje⟩
    exact ⟨j, hj, hje⟩

/-- When the zero list of a node is non-empty, the designate step returns a
node (std::max_element yields a dereferenceable iterator). -/
theorem bbCalc_isSome (nd : BBNodeData)
    (h : (bbReduce nd.size nd.distances nd.lowerBound).2.2 ≠ []) :
    (bbCalculateLowerBoundAndDesignateHighestZeroPenalty nd).isSome = true := by
  simp only [bbCalculateLowerBoundAndDesignateHighestZeroPenalty]
  rcases hz : (bbReduce nd.size nd.distances nd.lowerBound).2.2 with _ | ⟨z, zs⟩
  · exact absurd hz h
  · rfl

/-- C10: for a graph with n >= 2 whose edge weights are finite (not the
INT_MAX sentinel) at every index pair queried during root construction, the
zero list recorded by the root reduction is non-empty: the first row
reduction already records a zero at the column attaining the row minimum.
Hence std::max_element returns a dereferenceable element and the none
branch of the embedded designate-highest-zero routine is unreachable at the
root. -/
theorem bbRoot_zero_list_nonempty (g : Graph) (h2 : 2 ≤ g.n)
    (hfin : ∀ i, i < g.n → ∀ j, j < g.n → g.w i j ≠ intMax) :
    (bbReduce g.n (bbInitDistances g) 0).2.2 ≠ [] ∧
    (bbCalculateLowerBoundAndDesignateHighestZeroPenalty
      { size := g.n, distances := bbInitDistances g, lowerBound := 0,
        edgesOnPath := 0, highestZero := none }).isSome = true := by
  obtain ⟨j0, hj0, hj0e⟩ := rowMinOf_attained g.n (bbInitDistances g) 0 (by omega)
  have hrm : rowMinOf g.n (bbInitDistances g) 0 ≠ intMax := by
    rw [← hj0e]
    exact hfin 0 (by omega) j0 (List.mem_range.mp hj0)
  have hstep : (bbRowReduceStep g.n (bbInitDistances g, 0, []) 0).2.2 ≠ [] := by
    simp only [bbRowReduceStep]
    rw [if_neg hrm]
    have hjmem : j0 ∈ (List.range g.n).filter
        (fun j => decide (bbInitDistances g 0 j ≠ intMax ∧
          bbInitDistances g 0 j - rowMinOf g.n (bbInitDistances g) 0 = 0)) := by
      rw [List.mem_filter]
      refine ⟨hj0, ?_⟩
      rw [decide_eq_true_eq]
      exact ⟨hfin 0 (by omega) j0 (List.mem_range.mp hj0), by rw [hj0e]; ring⟩
    exact List.ne_nil_of_mem (List.mem_map.mpr ⟨j0, hjmem, rfl⟩)
  have hrow : ((List.range g.n).foldl (bbRowReduceStep g.n)
      (bbInitDistances g, 0, ([] : List (Nat × Nat)))).2.2 ≠ [] := by
    have hrange : List.range g.n = 0 :: (List.range (g.n - 1)).map Nat.succ := by
      conv_lhs => rw [show g.n = (g.n - 1) + 1 by omega]
      rw [List.range_succ_eq_map]
    rw [hrange, List.foldl_cons]
    intro hcon
    rcases bbRowFold_front g.n ((List.range (g.n - 1)).map Nat.succ)
      (bbRowReduceStep g.n (bbInitDistances g, 0, []) 0) with ⟨t1, ht1⟩
    rw [hcon] at ht1
    exact hstep (List.append_eq_nil.mp ht1).1
  have hmain : (bbReduce g.n (bbInitDistances g) 0).2.2 ≠ [] := by
    unfold bbReduce
    intro hcon
    rcases bbColFold_front g.n (List.range g.n)
      ((List.range g.n).foldl (bbRowReduceStep g.n) (bbInitDistances g, 0, [])) with ⟨t2, ht2⟩
    rw [hcon] at ht2
    exact hrow (List.append_eq_nil.mp ht2).1
  exact ⟨hmain, bbCalc_isSome _ hmain⟩

theorem bbRoot_zero_list_nonempty_witness :
    (bbReduce g2.n (bbInitDistances g2) 0).2.2 ≠ [] :=
  (bbRoot_zero_list_nonempty g2 (by decide) (by decide)).1

/-! ## Path and cycle cost algebra -/

theorem pathCost_nil (g : Graph) (p : Nat) : pathCost g p [] = 0 := rfl

theorem pathCost_cons (g : Graph) (p x : Nat) (xs : List Nat) :
    pathCost g p (x :: xs) = g.w p x + pathCost g x xs := rfl

theorem pathCost_append (g : Graph) : ∀ (l1 l2 : List Nat) (p : Nat),
    pathCost g p (l1 ++ l2) = pathCost g p l1 + pathCost g (l1.getLastD p) l2 := by
  intro l1
  induction l1 with
  | nil =>
    intro l2 p
    rw [List.nil_append, pathCost_nil, List.getLastD_nil, zero_add]
  | cons x xs ih =>
    intro l2 p
    rw [List.cons_append, pathCost_cons, pathCost_cons, ih l2 x,
      List.getLastD_cons, add_assoc]

theorem cycleFrom_eq_pathCost (g : Graph) (first : Nat) : ∀ (l : List Nat) (p : Nat),
    cycleFrom g first p l = pathCost g p l + g.w (l.getLastD p) first := by
  intro l
  induction l with
  | nil =>
    intro p
    show g.w p first = pathCost g p [] + g.w p first
    rw [pathCost_nil, zero_add]
  | cons x xs ih =>
    intro p
    show g.w p x + cycleFrom g first x xs = _
    rw [ih x, pathCost_cons, List.getLastD_cons, add_assoc]

theorem calculateTargetFunctionValue_eq (g : Graph) (l : List Nat) :
    calculateTargetFunctionValue g l =
      pathCost g (g.n - 1) l + g.w (l.getLastD (g.n - 1)) (g.n - 1) :=
  cycleFrom_eq_pathCost g (g.n - 1) l (g.n - 1)

theorem pathCost_nonneg (g : Graph) (hwf : WellFormed g) : ∀ (l : List Nat) (p : Nat),
    p < g.n → (∀ x ∈ l, x < g.n) → (p :: l).Nodup → 0 ≤ pathCost g p l := by
  intro l
  induction l with
  | nil => intro p _ _ _; exact le_refl 0
  | cons x xs ih =>
    intro p hp hxl hnd
    rw [pathCost_cons]
    have hx : x < g.n := hxl x (List.mem_cons_self x xs)
    obtain ⟨hpm, hnd2⟩ := List.nodup_cons.mp hnd
    have hpx : p ≠ x := fun he => hpm (he ▸ List.mem_cons_self x xs)
    have h0 : 0 ≤ g.w p x := (hwf.2 p hp x hx hpx).1
    have h1 : 0 ≤ pathCost g x xs :=
      ih x hx (fun y hy => hxl y (List.mem_cons_of_mem _ hy)) hnd2
    linarith

theorem pathCost_mul_le (g : Graph) (hwf : WellFormed g) : ∀ (l : List Nat) (p : Nat),
    p < g.n → (∀ x ∈ l, x < g.n) → (p :: l).Nodup →
    (g.n : Int) * pathCost g p l ≤ (l.length : Int) * (intMax - 1) := by
  intro l
  induction l with
  | nil => intro p _ _ _; rw [pathCost_nil, mul_zero]; norm_num
  | cons x xs ih =>
    intro p hp hxl hnd
    rw [pathCost_cons]
    have hx : x < g.n := hxl x (List.mem_cons_self x xs)
    obtain ⟨hpm, hnd2⟩ := List.nodup_cons.mp hnd
    have hpx : p ≠ x := fun he => hpm (he ▸ List.mem_cons_self x xs)
    have h0 : (g.n : Int) * g.w p x < intMax := (hwf.2 p hp x hx hpx).2
    have h1 : (g.n : Int) * pathCost g x xs ≤ (xs.length : Int) * (intMax - 1) :=
      ih x hx (fun y hy => hxl y (List.mem_cons_of_mem _ hy)) hnd2
    rw [List.length_cons]
    push_cast
    rw [mul_add]
    linarith

theorem pathCost_lt_intMax (g : Graph) (hwf : WellFormed g) (l : List Nat) (p : Nat)
    (hp : p < g.n) (hxl : ∀ x ∈ l, x < g.n) (hnd : (p :: l).Nodup)
    (hlen : (l.length : Int) ≤ (g.n : Int)) : pathCost g p l < intMax := by
  have h1 := pathCost_mul_le g hwf l p hp hxl hnd
  have hn : (0 : Int) < (g.n : Int) := by
    have := hwf.1
    exact_mod_cast (by omega : 0 < g.n)
  have h2 : (l.length : Int) * (intMax - 1) ≤ (g.n : Int) * (intMax - 1) := by
    apply mul_le_mul_of_nonneg_right hlen
    norm_num [intMax]
  have h3 : (g.n : Int) * pathCost g p l ≤ (g.n : Int) * (intMax - 1) := le_trans h1 h2
  have h4 : pathCost g p l ≤ intMax - 1 := le_of_mul_le_mul_left h3 hn
  linarith

/-! ## Mask list and permutation facts -/

theorem range_filter_two_pow (j : Nat) : ∀ (m : Nat), j < m →
    (List.range m).filter (fun k => (2 ^ j).testBit k) = [j] := by
  intro m
  induction m with
  | zero => intro h; omega
  | succ m ih =>
    intro hj
    rw [List.range_succ, List.filter_append]
    by_cases hm : j = m
    · subst hm
      have h1 : (List.range j).filter (fun k => (2 ^ j).testBit k) = [] := by
        rw [List.filter_eq_nil_iff]
        intro k hk
        rw [Nat.testBit_two_pow]
        have := List.mem_range.mp hk
        simp
        omega
      rw [h1, List.nil_append]
      have h2 : (2 ^ j).testBit j = true := Nat.testBit_two_pow_self
      simp [h2]
    · have hjm : j < m := by omega
      rw [ih hjm]
      have h2 : (2 ^ j).testBit m = false := Nat.testBit_two_pow_of_ne hm
      simp [h2]

theorem maskList_two_pow (m j : Nat) (hj : j < m) : maskList m (2 ^ j) = [j] :=
  range_filter_two_pow j m hj

theorem maskList_full (m : Nat) : maskList m (2 ^ m - 1) = List.range m := by
  unfold maskList
  rw [List.filter_eq_self]
  intro k hk
  rw [Nat.testBit_two_pow_sub_one]
  simp [List.mem_range.mp hk]

theorem eq_two_pow_of_maskList (m S j : Nat) (hS : S < 2 ^ m)
    (h : maskList m S = [j]) : S = 2 ^ j := by
  have hjm : j < m := by
    have : j ∈ maskList m S := by rw [h]; exact List.mem_singleton_self j
    exact ((mem_maskList m S j).mp this).1
  apply Nat.eq_of_testBit_eq
  intro k
  by_cases hk : k < m
  · have hiff : k ∈ maskList m S ↔ k ∈ [j] := by rw [h]
    rw [mem_maskList, List.mem_singleton] at hiff
    by_cases hkj : k = j
    · subst hkj
      rw [Nat.testBit_two_pow_self]
      exact (hiff.mpr rfl).2
    · rw [Nat.testBit_two_pow_of_ne (fun he => hkj he.symm)]
      by_cases hb : S.testBit k
      · exact absurd (hiff.mp ⟨hk, hb⟩) hkj
      · exact Bool.eq_false_iff.mpr hb
  · have h1 : S.testBit k = false :=
      Nat.testBit_lt_two_pow (lt_of_lt_of_le hS (Nat.pow_le_pow_right (by omega) (by omega)))
    have h2 : (2 ^ j).testBit k = false :=
      Nat.testBit_lt_two_pow (Nat.pow_lt_pow_right (by omega) (by omega))
    rw [h1, h2]

theorem maskList_dpSubset_erase (m S j : Nat) :
    maskList m (dpSubset S j) = (maskList m S).erase j := by
  rw [maskList_dpSubset, (maskList_nodup m S).erase_eq_filter]
  apply List.filter_congr
  intro k _
  by_cases hkj : k = j <;> simp [hkj]

open List

theorem minPathCost_le (g : Graph) (S j : Nat) (l : List Nat)
    (hmem : l ~ maskList (g.n - 1) S) (hlast : l.getLast? = some j) :
    minPathCost g S j ≤ pathCost g (g.n - 1) l := by
  apply listMinD_le_mem
  apply List.mem_map.mpr
  refine ⟨l, List.mem_filter.mpr ⟨List.mem_permutations'.mpr hmem, ?_⟩, rfl⟩
  rw [hlast]
  simp

theorem minPathCost_cases (g : Graph) (S j : Nat) :
    minPathCost g S j = intMax ∨
    ∃ l, l ~ maskList (g.n - 1) S ∧ l.getLast? = some j ∧
      minPathCost g S j = pathCost g (g.n - 1) l := by
  unfold minPathCost
  rcases listMinD_cases (((maskList (g.n - 1) S).permutations'.filter
      (fun l => l.getLast? = some j)).map (pathCost g (g.n - 1))) intMax with h | h
  · exact Or.inl h
  · right
    rcases List.mem_map.mp h with ⟨l, hl, hle⟩
    rcases List.mem_filter.mp hl with ⟨hperm, hcond⟩
    refine ⟨l, List.mem_permutations'.mp hperm, ?_, hle.symm⟩
    simpa using hcond

theorem minPathCost_le_intMax (g : Graph) (S j : Nat) : minPathCost g S j ≤ intMax :=
  listMinD_le_init _ _

theorem minPathCost_base (g : Graph) (hwf : WellFormed g) (j : Nat)
    (hj : j < g.n - 1) : minPathCost g (2 ^ j) j = g.w (g.n - 1) j := by
  unfold minPathCost
  rw [maskList_two_pow _ _ hj]
  have hperm : ([j] : List Nat).permutations' = [[j]] := rfl
  rw [hperm]
  have hfil : ([[j]] : List (List Nat)).filter (fun l => l.getLast? = some j)
      = [[j]] := by simp
  rw [hfil, List.map_cons, List.map_nil, pathCost_cons, pathCost_nil, add_zero]
  rw [listMinD, List.foldl_cons, List.foldl_nil]
  apply min_eq_right
  have hb := hwf.2 (g.n - 1) (by omega) j (by omega) (by omega)
  have hn2 : (2 : Int) ≤ (g.n : Int) := by exact_mod_cast hwf.1
  nlinarith [hb.1, hb.2]

theorem minPathCost_step (g : Graph) (hwf : WellFormed g) (S j : Nat)
    (hj : j < g.n - 1) (hS : S < 2 ^ (g.n - 1)) (hbit : S.testBit j = true)
    (hne : S ≠ 2 ^ j) :
    minPathCost g S j =
      listMinD ((maskList (g.n - 1) (dpSubset S j)).map
        (fun k => minPathCost g (dpSubset S j) k + g.w k j)) intMax := by
  have hjmem : j ∈ maskList (g.n - 1) S := (mem_maskList _ _ _).mpr ⟨hj, hbit⟩
  apply Int.le_antisymm
  · apply le_listMinD
    · exact minPathCost_le_intMax g S j
    · intro c hc
      rcases List.mem_map.mp hc with ⟨k, hk, hck⟩
      rw [← hck]
      obtain ⟨hkm, hbk⟩ := (mem_maskList _ _ _).mp hk
      have hkj : k ≠ j := by
        have := dpSubset_testBit S j k
        rw [hbk] at this
        rcases Bool.and_eq_true_iff.mp this.symm with ⟨_, hnot⟩
        simpa using hnot
      have hwkj : 0 ≤ g.w k j := (hwf.2 k (by omega) j (by omega) hkj).1
      rcases minPathCost_cases g (dpSubset S j) k with hmc | ⟨l', hl', hlast', hval⟩
      · rw [hmc]
        have h1 := minPathCost_le_intMax g S j
        linarith
      · have hl : (l' ++ [j]) ~ maskList (g.n - 1) S := by
          have h1 : maskList (g.n - 1) S ~ j :: maskList (g.n - 1) (dpSubset S j) := by
            rw [maskList_dpSubset_erase]
            exact List.perm_cons_erase hjmem
          calc l' ++ [j] ~ j :: l' := List.perm_append_singleton j l'
            _ ~ j :: maskList (g.n - 1) (dpSubset S j) := List.Perm.cons j hl'
            _ ~ maskList (g.n - 1) S := h1.symm
        have h2 : minPathCost g S j ≤ pathCost g (g.n - 1) (l' ++ [j]) :=
          minPathCost_le g S j _ hl (List.getLast?_concat l')
        rw [pathCost_append, List.getLastD_eq_getLast?, hlast'] at h2
        simp only [Option.getD_some] at h2
        rw [pathCost_cons, pathCost_nil, add_zero] at h2
        rw [hval]
        exact h2
  · rcases minPathCost_cases g S j with hmc | ⟨l, hl, hlast, hval⟩
    · rw [hmc]
      exact listMinD_le_init _ _
    · rcases List.getLast?_eq_some_iff.mp hlast with ⟨l', rfl⟩
      have hl'ne : l' ≠ [] := by
        rintro rfl
        rw [List.nil_append] at hl
        have hsing : maskList (g.n - 1) S = [j] := (List.perm_singleton.mp hl.symm)
        exact hne (eq_two_pow_of_maskList _ _ _ hS hsing)
      obtain ⟨k, hk⟩ : ∃ k, l'.getLast? = some k := by
        cases hgl : l'.getLast? with
        | none => exact absurd (List.getLast?_eq_none_iff.mp hgl) hl'ne
        | some k => exact ⟨k, rfl⟩
      have hndS : (maskList (g.n - 1) S).Nodup := maskList_nodup _ _
      have hnd : (l' ++ [j]).Nodup := hl.nodup_iff.mpr hndS
      have hjl' : j ∉ l' := by
        intro hmem
        rcases List.nodup_append.mp hnd with ⟨_, _, hdisj⟩
        exact hdisj hmem (List.mem_singleton_self j)
      have hl' : l' ~ maskList (g.n - 1) (dpSubset S j) := by
        rw [maskList_dpSubset_erase]
        have h2 : (l' ++ [j]).erase j ~ (maskList (g.n - 1) S).erase j := hl.erase j
        rw [List.erase_append_right _ hjl', List.erase_cons_head, List.append_nil] at h2
        exact h2
      have hkmem : k ∈ maskList (g.n - 1) (dpSubset S j) :=
        hl'.mem_iff.mp (List.mem_of_getLast?_eq_some hk)
      rw [hval, pathCost_append, List.getLastD_eq_getLast?, hk]
      simp only [Option.getD_some]
      rw [pathCost_cons, pathCost_nil, add_zero]
      have h3 : minPathCost g (dpSubset S j) k ≤ pathCost g (g.n - 1) l' :=
        minPathCost_le g _ k l' hl' hk
      have h4 : listMinD ((maskList (g.n - 1) (dpSubset S j)).map
          (fun k => minPathCost g (dpSubset S j) k + g.w k j)) intMax ≤
          minPathCost g (dpSubset S j) k + g.w k j :=
        listMinD_le_mem _ _ _ (List.mem_map.mpr ⟨k, hkmem, rfl⟩)
      linarith

/-! ## Memoization computes the minimum path costs -/

theorem if_lt_eq_min (x b : Int) : (if x < b then x else b) = min b x := by
  rcases lt_or_ge x b with h | h
  · rw [if_pos h, min_eq_right (le_of_lt h)]
  · rw [if_neg (not_lt.mpr h), min_eq_left h]

theorem listMinD_cons_eq (x : Int) (l : List Int) (b : Int) :
    listMinD (x :: l) b = listMinD l (min b x) := rfl

theorem dpSubset_le (S j : Nat) : dpSubset S j ≤ S := by
  unfold dpSubset
  split
  · exact Nat.sub_le S (2 ^ j)
  · exact le_refl S

theorem minPathCost_nonneg (g : Graph) (hwf : WellFormed g) (S j : Nat) :
    0 ≤ minPathCost g S j := by
  rcases minPathCost_cases g S j with hmc | ⟨l, hl, _, hval⟩
  · rw [hmc]; norm_num [intMax]
  · rw [hval]
    have hmem : ∀ x ∈ l, x < g.n - 1 := by
      intro x hx
      exact ((mem_maskList _ _ _).mp (hl.mem_iff.mp hx)).1
    have hnd : ((g.n - 1) :: l).Nodup := by
      rw [List.nodup_cons]
      refine ⟨fun hc => absurd (hmem _ hc) (by omega), hl.nodup_iff.mpr (maskList_nodup _ _)⟩
    exact pathCost_nonneg g hwf l (g.n - 1) (by have := hwf.1; omega)
      (fun x hx => by have := hmem x hx; omega) hnd

theorem dpFold_computes (g : Graph) (fuel S j : Nat)
    (IH : ∀ k t, k < g.n - 1 → (dpSubset S j).testBit k = true → TableInv g t →
      ∃ t2, dpGetPartialPathCost g fuel (dpSubset S j) k t =
        some (minPathCost g (dpSubset S j) k, t2) ∧ TableInv g t2) :
    ∀ (ks : List Nat), (∀ k ∈ ks, k < g.n - 1) → ∀ (b : Int) (t : Nat → Nat → Int),
      TableInv g t →
      ∃ t2, ks.foldl (dpStep g fuel S j) (some (b, t)) =
        some (listMinD ((ks.filter (fun k => (dpSubset S j).testBit k)).map
          (fun k => minPathCost g (dpSubset S j) k + g.w k j)) b, t2) ∧
        TableInv g t2 := by
  intro ks
  induction ks with
  | nil =>
    intro _ b t hinv
    exact ⟨t, rfl, hinv⟩
  | cons k ks ih =>
    intro hks b t hinv
    rw [List.foldl_cons]
    simp only [dpStep]
    by_cases hbit : (dpSubset S j).testBit k
    · rw [if_pos hbit]
      obtain ⟨t2, hget, hinv2⟩ := IH k t (hks k (List.mem_cons_self k ks)) hbit hinv
      rw [hget]
      obtain ⟨t3, hfold, hinv3⟩ := ih (fun k2 hk2 => hks k2 (List.mem_cons_of_mem _ hk2))
        (if minPathCost g (dpSubset S j) k + g.w k j < b
          then minPathCost g (dpSubset S j) k + g.w k j else b) t2 hinv2
      refine ⟨t3, ?_, hinv3⟩
      rw [hfold, List.filter_cons_of_pos hbit, List.map_cons, listMinD_cons_eq,
        if_lt_eq_min]
    · rw [if_neg hbit]
      obtain ⟨t3, hfold, hinv3⟩ := ih (fun k2 hk2 => hks k2 (List.mem_cons_of_mem _ hk2))
        b t hinv
      refine ⟨t3, ?_, hinv3⟩
      rw [hfold, List.filter_cons_of_neg (by simpa using hbit)]

theorem dpGet_computes (g : Graph) (hwf : WellFormed g) : ∀ (fuel S j : Nat)
    (tbl : Nat → Nat → Int), (maskList (g.n - 1) S).length ≤ fuel →
    j < g.n - 1 → S.testBit j = true → S < 2 ^ (g.n - 1) → TableInv g tbl →
    ∃ tbl2, dpGetPartialPathCost g fuel S j tbl = some (minPathCost g S j, tbl2) ∧
      TableInv g tbl2 := by
  intro fuel
  induction fuel with
  | zero =>
    intro S j tbl hlen hj hbit hS hinv
    exfalso
    have hjmem : j ∈ maskList (g.n - 1) S := (mem_maskList _ _ _).mpr ⟨hj, hbit⟩
    have : 0 < (maskList (g.n - 1) S).length :=
      List.length_pos.mpr (List.ne_nil_of_mem hjmem)
    omega
  | succ fuel ih =>
    intro S j tbl hlen hj hbit hS hinv
    by_cases htbl : tbl j S = -1
    · have hSne : S ≠ 2 ^ j := by
        rintro rfl
        exact (hinv.1 j hj) htbl
      have hjmem : j ∈ maskList (g.n - 1) S := (mem_maskList _ _ _).mpr ⟨hj, hbit⟩
      have hlen2 : (maskList (g.n - 1) (dpSubset S j)).length ≤ fuel := by
        rw [maskList_dpSubset_length _ _ _ hjmem]
        have : 0 < (maskList (g.n - 1) S).length :=
          List.length_pos.mpr (List.ne_nil_of_mem hjmem)
        omega
      have hS2 : dpSubset S j < 2 ^ (g.n - 1) := lt_of_le_of_lt (dpSubset_le S j) hS
      obtain ⟨t3, hfold, hinv3⟩ := dpFold_computes g fuel S j
        (fun k t hk hbk hinvt => ih (dpSubset S j) k t hlen2 hk hbk hS2 hinvt)
        (List.range (g.n - 1)) (fun k hk => List.mem_range.mp hk) intMax tbl hinv
      have hval : listMinD (((List.range (g.n - 1)).filter
          (fun k => (dpSubset S j).testBit k)).map
          (fun k => minPathCost g (dpSubset S j) k + g.w k j)) intMax
          = minPathCost g S j := by
        have hm : (List.range (g.n - 1)).filter (fun k => (dpSubset S j).testBit k)
            = maskList (g.n - 1) (dpSubset S j) := rfl
        rw [hm]
        exact (minPathCost_step g hwf S j hj hS hbit hSne).symm
      refine ⟨tableSet t3 j S (minPathCost g S j), ?_, ?_⟩
      · rw [dpGet_succ, if_pos htbl, hfold, hval]
      · constructor
        · intro j2 hj2
          unfold tableSet
          by_cases hc : j2 = j ∧ 2 ^ j2 = S
          · rw [if_pos hc]
            have h0 := minPathCost_nonneg g hwf S j
            intro hcon
            rw [hcon] at h0
            norm_num at h0
          · rw [if_neg hc]
            exact hinv3.1 j2 hj2
        · intro j2 S2 hj2 hne2
          unfold tableSet at hne2 ⊢
          by_cases hc : j2 = j ∧ S2 = S
          · rw [if_pos hc]
            obtain ⟨rfl, rfl⟩ := hc
            rfl
          · rw [if_neg hc] at hne2 ⊢
            exact hinv3.2 j2 S2 hj2 hne2
    · refine ⟨tbl, ?_, hinv⟩
      rw [dpGet_succ, if_neg htbl, hinv.2 j S hj htbl]

/-! ## Claim C2: Held-Karp functional correctness -/

theorem initTable_inv (g : Graph) (hwf : WellFormed g) : TableInv g (initTable g) := by
  constructor
  · intro j hj
    unfold initTable
    rw [if_pos hj, if_pos rfl]
    have h0 := (hwf.2 (g.n - 1) (by have := hwf.1; omega) j (by omega) (by omega)).1
    intro hc
    rw [hc] at h0
    norm_num at h0
  · intro j S hj hne
    unfold initTable at hne ⊢
    rw [if_pos hj] at hne ⊢
    by_cases hS : S = 2 ^ j
    · rw [if_pos hS]
      subst hS
      exact (minPathCost_base g hwf j hj).symm
    · rw [if_neg hS] at hne
      exact absurd rfl hne

theorem hkFold_computes (g : Graph) (hwf : WellFormed g) :
    ∀ (ks : List Nat), (∀ k ∈ ks, k < g.n - 1) → ∀ (b : Int) (t : Nat → Nat → Int),
      TableInv g t →
      ∃ t2, ks.foldl (hkStep g) (some (b, t)) =
        some (listMinD (ks.map (fun j => minPathCost g (2 ^ (g.n - 1) - 1) j
          + g.w j (g.n - 1))) b, t2) ∧ TableInv g t2 := by
  intro ks
  induction ks with
  | nil =>
    intro _ b t hinv
    exact ⟨t, rfl, hinv⟩
  | cons j ks ih =>
    intro hks b t hinv
    rw [List.foldl_cons]
    simp only [hkStep]
    have hj : j < g.n - 1 := hks j (List.mem_cons_self j ks)
    have hlen : (maskList (g.n - 1) (2 ^ (g.n - 1) - 1)).length ≤ g.n := by
      rw [maskList_full, List.length_range]
      omega
    have hbitj : (2 ^ (g.n - 1) - 1).testBit j = true := by
      rw [Nat.testBit_two_pow_sub_one]
      simpa using hj
    have hSfull : 2 ^ (g.n - 1) - 1 < 2 ^ (g.n - 1) := by
      have := Nat.two_pow_pos (g.n - 1)
      omega
    obtain ⟨t2, hget, hinv2⟩ :=
      dpGet_computes g hwf g.n (2 ^ (g.n - 1) - 1) j t hlen hj hbitj hSfull hinv
    rw [hget]
    obtain ⟨t3, hfold, hinv3⟩ := ih (fun k hk => hks k (List.mem_cons_of_mem _ hk))
      (if minPathCost g (2 ^ (g.n - 1) - 1) j + g.w j (g.n - 1) < b
        then minPathCost g (2 ^ (g.n - 1) - 1) j + g.w j (g.n - 1) else b) t2 hinv2
    refine ⟨t3, ?_, hinv3⟩
    rw [hfold, List.map_cons, listMinD_cons_eq, if_lt_eq_min]

theorem heldKarp_eq_min_formula (g : Graph) (hwf : WellFormed g) :
    dynamicProgrammingHeldKarp g = listMinD ((List.range (g.n - 1)).map
      (fun j => minPathCost g (2 ^ (g.n - 1) - 1) j + g.w j (g.n - 1))) intMax := by
  obtain ⟨t2, hfold, _⟩ := hkFold_computes g hwf (List.range (g.n - 1))
    (fun k hk => List.mem_range.mp hk) intMax (initTable g) (initTable_inv g hwf)
  unfold dynamicProgrammingHeldKarp
  rw [hfold]

theorem ctv_bounds (g : Graph) (hwf : WellFormed g) (l : List Nat)
    (hl : l ~ List.range (g.n - 1)) :
    0 ≤ calculateTargetFunctionValue g l ∧
    calculateTargetFunctionValue g l < intMax := by
  have h2 := hwf.1
  have hmem : ∀ x ∈ l, x < g.n - 1 := fun x hx => List.mem_range.mp (hl.mem_iff.mp hx)
  have hnd : ((g.n - 1) :: l).Nodup := by
    rw [List.nodup_cons]
    exact ⟨fun hc => absurd (hmem _ hc) (by omega),
      hl.nodup_iff.mpr (List.nodup_range _)⟩
  have hlenl : l.length = g.n - 1 := by
    rw [hl.length_eq, List.length_range]
  have hne : l ≠ [] := by
    intro hc
    rw [hc] at hlenl
    simp at hlenl
    omega
  obtain ⟨k, hk⟩ : ∃ k, l.getLast? = some k := by
    cases hgl : l.getLast? with
    | none => exact absurd (List.getLast?_eq_none_iff.mp hgl) hne
    | some k => exact ⟨k, rfl⟩
  have hkmem : k ∈ l := List.mem_of_getLast?_eq_some hk
  have hkn : k < g.n - 1 := hmem k hkmem
  rw [calculateTargetFunctionValue_eq, List.getLastD_eq_getLast?, hk]
  simp only [Option.getD_some]
  have hp0 : 0 ≤ pathCost g (g.n - 1) l :=
    pathCost_nonneg g hwf l (g.n - 1) (by omega) (fun x hx => by have := hmem x hx; omega) hnd
  have hwk := hwf.2 k (by omega) (g.n - 1) (by omega) (by omega)
  have hpmul := pathCost_mul_le g hwf l (g.n - 1) (by omega)
    (fun x hx => by have := hmem x hx; omega) hnd
  rw [hlenl] at hpmul
  have hn2 : (2 : Int) ≤ (g.n : Int) := by exact_mod_cast h2
  have hlen2 : ((g.n - 1 : Nat) : Int) = (g.n : Int) - 1 := by
    have : 1 ≤ g.n := by omega
    push_cast [this]
    ring
  rw [hlen2] at hpmul
  constructor
  · linarith [hwk.1]
  · nlinarith [hwk.1, hwk.2, hpmul, hp0, hn2]

theorem optCost_attained (g : Graph) : ∃ l, l ~ List.range (g.n - 1) ∧
    optCost g = calculateTargetFunctionValue g l := by
  unfold optCost
  rcases listMinD_cases ((allPerms g).map (calculateTargetFunctionValue g))
      (calculateTargetFunctionValue g (List.range (g.n - 1))) with h | h
  · exact ⟨List.range (g.n - 1), List.Perm.refl _, h⟩
  · rcases List.mem_map.mp h with ⟨l, hlm, hle⟩
    exact ⟨l, List.mem_permutations'.mp hlm, hle.symm⟩

theorem optCost_le_tour (g : Graph) (l : List Nat) (hl : l ~ List.range (g.n - 1)) :
    optCost g ≤ calculateTargetFunctionValue g l := by
  apply listMinD_le_mem
  exact List.mem_map.mpr ⟨l, List.mem_permutations'.mpr hl, rfl⟩

theorem optCost_eq_min_formula (g : Graph) (hwf : WellFormed g) :
    optCost g = listMinD ((List.range (g.n - 1)).map
      (fun j => minPathCost g (2 ^ (g.n - 1) - 1) j + g.w j (g.n - 1))) intMax := by
  have h2 := hwf.1
  apply Int.le_antisymm
  · apply le_listMinD
    · have h0 : optCost g ≤ calculateTargetFunctionValue g (List.range (g.n - 1)) :=
        listMinD_le_init _ _
      have h1 := (ctv_bounds g hwf (List.range (g.n - 1)) (List.Perm.refl _)).2
      linarith
    · intro c hc
      rcases List.mem_map.mp hc with ⟨j, hjm, hje⟩
      have hj : j < g.n - 1 := List.mem_range.mp hjm
      rw [← hje]
      have hwj := (hwf.2 j (by omega) (g.n - 1) (by omega) (by omega)).1
      rcases minPathCost_cases g (2 ^ (g.n - 1) - 1) j with hmc | ⟨l, hlp, hlast, hval⟩
      · rw [hmc]
        have h0 : optCost g ≤ calculateTargetFunctionValue g (List.range (g.n - 1)) :=
          listMinD_le_init _ _
        have h1 := (ctv_bounds g hwf (List.range (g.n - 1)) (List.Perm.refl _)).2
        linarith
      · rw [maskList_full] at hlp
        have h3 : optCost g ≤ calculateTargetFunctionValue g l := optCost_le_tour g l hlp
        rw [calculateTargetFunctionValue_eq, List.getLastD_eq_getLast?, hlast] at h3
        simp only [Option.getD_some] at h3
        rw [hval]
        exact h3
  · obtain ⟨l, hlp, hle⟩ := optCost_attained g
    have hlenl : l.length = g.n - 1 := by rw [hlp.length_eq, List.length_range]
    have hne : l ≠ [] := by
      intro hc
      rw [hc] at hlenl
      simp at hlenl
      omega
    obtain ⟨k, hk⟩ : ∃ k, l.getLast? = some k := by
      cases hgl : l.getLast? with
      | none => exact absurd (List.getLast?_eq_none_iff.mp hgl) hne
      | some k => exact ⟨k, rfl⟩
    have hkn : k < g.n - 1 :=
      List.mem_range.mp (hlp.mem_iff.mp (List.mem_of_getLast?_eq_some hk))
    have h4 : minPathCost g (2 ^ (g.n - 1) - 1) k ≤ pathCost g (g.n - 1) l := by
      apply minPathCost_le g _ k l _ hk
      rw [maskList_full]
      exact hlp
    have h5 : listMinD ((List.range (g.n - 1)).map
        (fun j => minPathCost g (2 ^ (g.n - 1) - 1) j + g.w j (g.n - 1))) intMax ≤
        minPathCost g (2 ^ (g.n - 1) - 1) k + g.w k (g.n - 1) :=
      listMinD_le_mem _ _ _ (List.mem_map.mpr ⟨k, List.mem_range.mpr hkn, rfl⟩)
    rw [hle, calculateTargetFunctionValue_eq, List.getLastD_eq_getLast?, hk]
    simp only [Option.getD_some]
    linarith

/-- C2: the Held-Karp solver is correct. The mathematical dp value
minPathCost satisfies the claimed base case dp[j][{j}] = w(n-1, j) and the
claimed recurrence dp[j][S] = min over k in S minus {j} of dp[k][S minus
{j}] + w(k, j); dynamicProgrammingHeldKarp returns min over j < n-1 of
dp[j][Full] + w(j, n-1) with Full = {0..n-2}; and that value is the exact
minimum Hamiltonian cycle cost through the fixed origin n-1. -/
theorem heldKarp_correct (g : Graph) (hwf : WellFormed g) :
    (∀ j, j < g.n - 1 → minPathCost g (2 ^ j) j = g.w (g.n - 1) j) ∧
    (∀ S j, j < g.n - 1 → S < 2 ^ (g.n - 1) → S.testBit j = true → S ≠ 2 ^ j →
      minPathCost g S j = listMinD ((maskList (g.n - 1) (dpSubset S j)).map
        (fun k => minPathCost g (dpSubset S j) k + g.w k j)) intMax) ∧
    dynamicProgrammingHeldKarp g = listMinD ((List.range (g.n - 1)).map
      (fun j => minPathCost g (2 ^ (g.n - 1) - 1) j + g.w j (g.n - 1))) intMax ∧
    dynamicProgrammingHeldKarp g = optCost g := by
  refine ⟨fun j hj => minPathCost_base g hwf j hj,
    fun S j hj hS hbit hne => minPathCost_step g hwf S j hj hS hbit hne,
    heldKarp_eq_min_formula g hwf, ?_⟩
  rw [heldKarp_eq_min_formula g hwf, optCost_eq_min_formula g hwf]

theorem heldKarp_correct_witness :
    minPathCost g2 (2 ^ 0) 0 = g2.w (g2.n - 1) 0 ∧
    dynamicProgrammingHeldKarp g2 = optCost g2 := by
  have h := heldKarp_correct g2 (by decide)
  exact ⟨h.1 0 (by decide), h.2.2.2⟩

/-! ## Claim C6: the root lower bound is at most the optimum -/

theorem bbRowFold_spec (n : Nat) (M0 : Nat → Nat → Int) : ∀ (L : List Nat)
    (M : Nat → Nat → Int) (lb : Int) (zs : List (Nat × Nat)),
    L.Nodup → (∀ i, i ∈ L → ∀ b, M i b = M0 i b) →
    (∀ a b, (L.foldl (bbRowReduceStep n) (M, lb, zs)).1 a b =
      if a ∈ L then rowRed n M0 a b else M a b) ∧
    (L.foldl (bbRowReduceStep n) (M, lb, zs)).2.1 =
      lb + (L.map (rowContrib n M0)).sum := by
  intro L
  induction L with
  | nil =>
    intro M lb zs _ _
    exact ⟨fun a b => by simp, by simp⟩
  | cons i L ih =>
    intro M lb zs hnd hagree
    obtain ⟨hiL, hndL⟩ := List.nodup_cons.mp hnd
    rw [List.foldl_cons]
    have hrow : ∀ b, M i b = M0 i b := hagree i (List.mem_cons_self i L)
    have hmin : rowMinOf n M i = rowMinOf n M0 i := by
      unfold rowMinOf
      rw [hrow 0]
      congr 1
      exact List.map_congr_left (fun b _ => hrow b)
    simp only [bbRowReduceStep]
    by_cases hskip : rowMinOf n M i = intMax
    · rw [if_pos hskip]
      obtain ⟨ihM, ihlb⟩ := ih M lb zs hndL
        (fun a ha b => hagree a (List.mem_cons_of_mem _ ha) b)
      constructor
      · intro a b
        rw [ihM a b]
        by_cases haL : a ∈ L
        · rw [if_pos haL, if_pos (List.mem_cons_of_mem _ haL)]
        · rw [if_neg haL]
          by_cases hai : a = i
          · subst hai
            rw [if_pos (List.mem_cons_self a L), hrow b]
            unfold rowRed
            rw [if_pos (Or.inl (hmin ▸ hskip))]
          · rw [if_neg (by simp [hai, haL])]
      · rw [ihlb, List.map_cons, List.sum_cons]
        unfold rowContrib
        rw [if_pos (hmin ▸ hskip)]
        ring
    · rw [if_neg hskip]
      obtain ⟨ihM, ihlb⟩ := ih
        (fun a b => if a = i ∧ M a b ≠ intMax then M a b - rowMinOf n M i else M a b)
        (lb + rowMinOf n M i) (zs ++ ((List.range n).filter
          (fun j => M i j ≠ intMax ∧ M i j - rowMinOf n M i = 0)).map (fun j => (i, j)))
        hndL
        (fun a ha b => by
          have hai : a ≠ i := fun he => hiL (he ▸ ha)
          show (if a = i ∧ M a b ≠ intMax then M a b - rowMinOf n M i else M a b)
            = M0 a b
          rw [if_neg (by simp [hai])]
          exact hagree a (List.mem_cons_of_mem _ ha) b)
      constructor
      · intro a b
        rw [ihM a b]
        by_cases haL : a ∈ L
        · rw [if_pos haL, if_pos (List.mem_cons_of_mem _ haL)]
        · rw [if_neg haL]
          by_cases hai : a = i
          · subst hai
            rw [if_pos (List.mem_cons_self a L)]
            unfold rowRed
            rw [hmin]
            by_cases hMab : M a b = intMax
            · rw [if_neg (by simp [hMab]), if_pos (Or.inr (by rw [← hrow b]; exact hMab)),
                ← hrow b]
            · rw [if_pos (by simp [hMab]), if_neg (by
                push_neg
                exact ⟨hmin ▸ hskip, by rw [← hrow b]; exact hMab⟩), hrow b]
          · rw [if_neg (fun hc => (List.mem_cons.mp hc).elim hai haL),
              if_neg (fun hc => hai hc.1)]
      · rw [ihlb, List.map_cons, List.sum_cons]
        unfold rowContrib
        rw [if_neg (hmin ▸ hskip), hmin]
        ring

theorem bbColFold_bound (n : Nat) (M0 : Nat → Nat → Int) : ∀ (L : List Nat)
    (M : Nat → Nat → Int) (lb : Int) (zs : List (Nat × Nat)),
    L.Nodup → (∀ j, j ∈ L → ∀ a, M a j = M0 a j) →
    (L.foldl (bbColReduceStep n) (M, lb, zs)).2.1 =
      lb + (L.map (colContrib n M0)).sum := by
  intro L
  induction L with
  | nil =>
    intro M lb zs _ _
    simp
  | cons j L ih =>
    intro M lb zs hnd hagree
    obtain ⟨hjL, hndL⟩ := List.nodup_cons.mp hnd
    rw [List.foldl_cons]
    have hcol : ∀ a, M a j = M0 a j := hagree j (List.mem_cons_self j L)
    have hmin : colMinOf n M j = colMinOf n M0 j := by
      unfold colMinOf
      rw [hcol 0]
      congr 1
      exact List.map_congr_left (fun a _ => hcol a)
    simp only [bbColReduceStep]
    by_cases hskip : colMinOf n M j = intMax ∨ colMinOf n M j = 0
    · rw [if_pos hskip]
      rw [ih M lb zs hndL (fun c hc a => hagree c (List.mem_cons_of_mem _ hc) a),
        List.map_cons, List.sum_cons]
      unfold colContrib
      rw [if_pos (hmin ▸ hskip)]
      ring
    · rw [if_neg hskip]
      rw [ih _ _ _ hndL (fun c hc a => by
        have hcj : c ≠ j := fun he => hjL (he ▸ hc)
        show (if c = j ∧ M a c ≠ intMax then M a c - colMinOf n M j else M a c)
          = M0 a c
        rw [if_neg (fun hcon => hcj hcon.1)]
        exact hagree c (List.mem_cons_of_mem _ hc) a),
        List.map_cons, List.sum_cons]
      unfold colContrib
      rw [if_neg (hmin ▸ hskip), hmin]
      ring

theorem bbReduce_bound (n : Nat) (M0 : Nat → Nat → Int) (lb0 : Int) :
    ∃ M1 : Nat → Nat → Int, (∀ a b, a < n → M1 a b = rowRed n M0 a b) ∧
      (bbReduce n M0 lb0).2.1 = lb0 + ((List.range n).map (rowContrib n M0)).sum
        + ((List.range n).map (colContrib n M1)).sum := by
  obtain ⟨hM, hlb⟩ := bbRowFold_spec n M0 (List.range n) M0 lb0 []
    (List.nodup_range n) (fun _ _ _ => rfl)
  set R := (List.range n).foldl (bbRowReduceStep n) (M0, lb0, []) with hR
  refine ⟨R.1, fun a b ha => by rw [hM a b, if_pos (List.mem_range.mpr ha)], ?_⟩
  unfold bbReduce
  have hcol := bbColFold_bound n R.1 (List.range n) R.1 R.2.1 R.2.2
    (List.nodup_range n) (fun _ _ _ => rfl)
  rw [show ((R.1, R.2.1, R.2.2) : (Nat → Nat → Int) × Int × List (Nat × Nat)) = R
    from rfl] at hcol
  rw [← hR, hcol, hlb]

theorem edge_ge_contrib (g : Graph) (hwf : WellFormed g)
    (M1 : Nat → Nat → Int)
    (hM1 : ∀ a b, a < g.n → M1 a b = rowRed g.n (bbInitDistances g) a b)
    (a b : Nat) (ha : a < g.n) (hb : b < g.n) (hab : a ≠ b) :
    rowContrib g.n (bbInitDistances g) a + colContrib g.n M1 b ≤ g.w a b := by
  have hw := hwf.2 a ha b hb hab
  have hn2 : (2 : Int) ≤ (g.n : Int) := by exact_mod_cast hwf.1
  have hw_lt : g.w a b < intMax := by nlinarith [hw.1, hw.2]
  have hrm_le : rowMinOf g.n (bbInitDistances g) a ≤ g.w a b := by
    unfold rowMinOf
    apply listMinD_le_mem
    exact List.mem_map.mpr ⟨b, List.mem_range.mpr hb, rfl⟩
  have hrm_ne : rowMinOf g.n (bbInitDistances g) a ≠ intMax := by
    intro hc
    rw [hc] at hrm_le
    linarith
  have hrc : rowContrib g.n (bbInitDistances g) a
      = rowMinOf g.n (bbInitDistances g) a := by
    unfold rowContrib
    rw [if_neg hrm_ne]
  have hM1ab : M1 a b = g.w a b - rowMinOf g.n (bbInitDistances g) a := by
    rw [hM1 a b ha]
    unfold rowRed
    rw [if_neg (by
      push_neg
      refine ⟨hrm_ne, ?_⟩
      show g.w a b ≠ intMax
      intro hc
      rw [hc] at hw_lt
      exact absurd hw_lt (lt_irrefl intMax))]
    rfl
  have hcm_le : colMinOf g.n M1 b ≤ M1 a b := by
    unfold colMinOf
    apply listMinD_le_mem
    exact List.mem_map.mpr ⟨a, List.mem_range.mpr ha, rfl⟩
  unfold colContrib
  by_cases hc : colMinOf g.n M1 b = intMax ∨ colMinOf g.n M1 b = 0
  · rw [if_pos hc, hrc]
    linarith
  · rw [if_neg hc, hrc]
    rw [hM1ab] at hcm_le
    linarith

theorem cycleFrom_as_sum (g : Graph) (first : Nat) : ∀ (l : List Nat) (prev : Nat),
    cycleFrom g first prev l =
      ((List.zip (prev :: l) (l ++ [first])).map (fun e => g.w e.1 e.2)).sum := by
  intro l
  induction l with
  | nil =>
    intro prev
    show g.w prev first = _
    simp
  | cons x xs ih =>
    intro prev
    show g.w prev x + cycleFrom g first x xs = _
    rw [ih x, List.cons_append, List.zip_cons_cons, List.map_cons, List.sum_cons]

theorem tourEdges_valid (g : Graph) (hn : 2 ≤ g.n) : ∀ (l : List Nat) (prev : Nat),
    prev < g.n → (prev :: l).Nodup → (∀ x ∈ l, x < g.n - 1) →
    (l = [] → prev ≠ g.n - 1) →
    ∀ e ∈ List.zip (prev :: l) (l ++ [g.n - 1]),
      e.1 < g.n ∧ e.2 < g.n ∧ e.1 ≠ e.2 := by
  intro l
  induction l with
  | nil =>
    intro prev hp _ _ hne e he
    rw [List.nil_append, List.zip_cons_cons, List.zip_nil_left] at he
    rcases List.mem_singleton.mp he with rfl
    exact ⟨hp, by omega, hne rfl⟩
  | cons x xs ih =>
    intro prev hp hnd hmem hne e he
    rw [List.cons_append, List.zip_cons_cons] at he
    rcases List.mem_cons.mp he with rfl | he2
    · have hx : x < g.n - 1 := hmem x (List.mem_cons_self x xs)
      obtain ⟨hpm, _⟩ := List.nodup_cons.mp hnd
      refine ⟨hp, by omega, fun hc => hpm ?_⟩
      rw [show prev = x from hc]
      exact List.mem_cons_self x xs
    · exact ih x (by have := hmem x (List.mem_cons_self x xs); omega)
        (List.nodup_cons.mp hnd).2
        (fun y hy => hmem y (List.mem_cons_of_mem _ hy))
        (fun _ => by have := hmem x (List.mem_cons_self x xs); omega) e he2

theorem bbRootBound_le_tour (g : Graph) (hwf : WellFormed g) (l : List Nat)
    (hl : l ~ List.range (g.n - 1)) :
    (bbReduce g.n (bbInitDistances g) 0).2.1 ≤ calculateTargetFunctionValue g l := by
  have h2 := hwf.1
  obtain ⟨M1, hM1, hbound⟩ := bbReduce_bound g.n (bbInitDistances g) 0
  rw [hbound]
  have hctv : calculateTargetFunctionValue g l =
      ((List.zip ((g.n - 1) :: l) (l ++ [g.n - 1])).map (fun e => g.w e.1 e.2)).sum :=
    cycleFrom_as_sum g (g.n - 1) l (g.n - 1)
  rw [hctv]
  have hmem : ∀ x ∈ l, x < g.n - 1 := fun x hx => List.mem_range.mp (hl.mem_iff.mp hx)
  have hnd : ((g.n - 1) :: l).Nodup := by
    rw [List.nodup_cons]
    exact ⟨fun hc => absurd (hmem _ hc) (by omega),
      hl.nodup_iff.mpr (List.nodup_range _)⟩
  have hlenl : l.length = g.n - 1 := by rw [hl.length_eq, List.length_range]
  have hlne : l ≠ [] := by
    intro hc
    rw [hc] at hlenl
    simp at hlenl
    omega
  have hvalid := tourEdges_valid g h2 l (g.n - 1) (by omega) hnd hmem
    (fun hc => absurd hc hlne)
  have hpt : ∀ e ∈ List.zip ((g.n - 1) :: l) (l ++ [g.n - 1]),
      rowContrib g.n (bbInitDistances g) e.1 + colContrib g.n M1 e.2 ≤ g.w e.1 e.2 := by
    intro e he
    obtain ⟨h1, h2e, h3⟩ := hvalid e he
    exact edge_ge_contrib g hwf M1 hM1 e.1 e.2 h1 h2e h3
  have hsum := List.sum_le_sum hpt
  rw [List.sum_map_add] at hsum
  have hlen1 : ((g.n - 1) :: l).length ≤ (l ++ [g.n - 1]).length := by
    rw [List.length_cons, List.length_append, List.length_singleton]
  have hlen2 : (l ++ [g.n - 1]).length ≤ ((g.n - 1) :: l).length := by
    rw [List.length_cons, List.length_append, List.length_singleton]
  have hfst : (List.zip ((g.n - 1) :: l) (l ++ [g.n - 1])).map
      (fun e => rowContrib g.n (bbInitDistances g) e.1)
      = ((g.n - 1) :: l).map (rowContrib g.n (bbInitDistances g)) := by
    rw [show (fun (e : Nat × Nat) => rowContrib g.n (bbInitDistances g) e.1)
      = (rowContrib g.n (bbInitDistances g)) ∘ Prod.fst from rfl]
    rw [← List.map_map, List.map_fst_zip _ _ hlen1]
  have hsnd : (List.zip ((g.n - 1) :: l) (l ++ [g.n - 1])).map
      (fun e => colContrib g.n M1 e.2) = (l ++ [g.n - 1]).map (colContrib g.n M1) := by
    rw [show (fun (e : Nat × Nat) => colContrib g.n M1 e.2)
      = (colContrib g.n M1) ∘ Prod.snd from rfl]
    rw [← List.map_map, List.map_snd_zip _ _ hlen2]
  rw [hfst, hsnd] at hsum
  have hrn : List.range g.n = List.range (g.n - 1) ++ [g.n - 1] := by
    conv_lhs => rw [show g.n = (g.n - 1) + 1 by omega]
    rw [List.range_succ]
  have hpn : ((g.n - 1) :: l) ~ List.range g.n := by
    rw [hrn]
    calc (g.n - 1) :: l ~ (g.n - 1) :: List.range (g.n - 1) := hl.cons _
      _ ~ List.range (g.n - 1) ++ [g.n - 1] := (List.perm_append_singleton _ _).symm
  have hpn2 : (l ++ [g.n - 1]) ~ List.range g.n := by
    rw [hrn]
    exact hl.append_right [g.n - 1]
  have hs1 : (((g.n - 1) :: l).map (rowContrib g.n (bbInitDistances g))).sum
      = ((List.range g.n).map (rowContrib g.n (bbInitDistances g))).sum :=
    (hpn.map _).sum_eq
  have hs2 : ((l ++ [g.n - 1]).map (colContrib g.n M1)).sum
      = ((List.range g.n).map (colContrib g.n M1)).sum :=
    (hpn2.map _).sum_eq
  rw [hs1, hs2] at hsum
  linarith

/-- C6: the root lower bound computed by the row-then-column reduction of
bbCalculateLowerBoundAndDesignateHighestZeroPenalty, starting from the
node's lower bound 0 and the code's actual root matrix, never exceeds the
exact optimal Hamiltonian cycle cost of a well-formed instance. -/
theorem bbRootBound_le_optimum (g : Graph) (hwf : WellFormed g) :
    (bbReduce g.n (bbInitDistances g) 0).2.1 ≤ optCost g := by
  obtain ⟨l, hl, hle⟩ := optCost_attained g
  rw [hle]
  exact bbRootBound_le_tour g hwf l hl

theorem bbRootBound_le_optimum_witness :
    (bbReduce g4.n (bbInitDistances g4) 0).2.1 ≤ optCost g4 :=
  bbRootBound_le_optimum g4 (by decide)

/-! ## List window toolkit for the bruteForce generator analysis -/

theorem swapT_length (l : List Nat) (i j : Nat) : (swapT l i j).length = l.length := by
  simp [swapT]

theorem getD_append_size (u w : List Nat) (k : Nat) :
    (u ++ w).getD (u.length + k) 0 = w.getD k 0 := by
  rw [List.getD_eq_getElem?_getD, List.getD_eq_getElem?_getD,
    List.getElem?_append_right (Nat.le_add_right _ _), Nat.add_sub_cancel_left]

theorem getD_append_small (u w : List Nat) (k : Nat) (h : k < u.length) :
    (u ++ w).getD k 0 = u.getD k 0 := by
  rw [List.getD_eq_getElem?_getD, List.getD_eq_getElem?_getD, List.getElem?_append, if_pos h]

theorem set_append_size (u w : List Nat) (k z : Nat) :
    (u ++ w).set (u.length + k) z = u ++ w.set k z := by
  rw [List.set_append, if_neg (by omega), Nat.add_sub_cancel_left]

theorem set_append_small (u w : List Nat) (k z : Nat) (h : k < u.length) :
    (u ++ w).set k z = u.set k z ++ w := by
  rw [List.set_append, if_pos h]

theorem swapT_window (u : List Nat) (y : Nat) (v : List Nat) (x : Nat) :
    swapT (u ++ (y :: (v ++ [x]))) (u.length + v.length + 1) u.length
      = u ++ (x :: (v ++ [y])) := by
  have e1 : u.length + v.length + 1 = u.length + (v.length + 1) := by omega
  have h1 : (u ++ (y :: (v ++ [x]))).getD u.length 0 = y := by
    have h := getD_append_size u (y :: (v ++ [x])) 0
    rw [Nat.add_zero] at h
    rw [h, List.getD_cons_zero]
  have h2 : (u ++ (y :: (v ++ [x]))).getD (u.length + v.length + 1) 0 = x := by
    rw [e1, getD_append_size, List.getD_cons_succ]
    have h := getD_append_size v [x] 0
    rw [Nat.add_zero] at h
    rw [h, List.getD_cons_zero]
  unfold swapT
  rw [h1, h2]
  have hs1 : (u ++ (y :: (v ++ [x]))).set (u.length + v.length + 1) y
      = u ++ (y :: (v ++ [y])) := by
    rw [e1, set_append_size, List.set_cons_succ]
    have h := set_append_size v [x] 0 y
    rw [Nat.add_zero] at h
    rw [h, List.set_cons_zero]
  rw [hs1]
  have h := set_append_size u (y :: (v ++ [y])) 0 x
  rw [Nat.add_zero] at h
  rw [h, List.set_cons_zero]

theorem swapEndsT_window (y : Nat) (v : List Nat) (x : Nat) :
    swapEndsT (y :: (v ++ [x])) = x :: (v ++ [y]) := by
  simp [swapEndsT, List.getLast?_concat, List.dropLast_concat]

theorem exists_window_of_two_le (l : List Nat) (h : 2 <= l.length) :
    ∃ y v x, l = y :: (v ++ [x]) := by
  match l, h with
  | a :: t, h =>
    rcases t.eq_nil_or_concat with h0 | ⟨v, x, hvx⟩
    · rw [h0] at h; simp at h
    · exact ⟨a, v, x, by rw [hvx, List.concat_eq_append]⟩

theorem swapEndsT_swapEndsT (l : List Nat) : swapEndsT (swapEndsT l) = l := by
  match l with
  | [] => rfl
  | [x] => rfl
  | a :: b :: t =>
    obtain ⟨y, v, x, hw⟩ := exists_window_of_two_le (a :: b :: t) (by simp)
    rw [hw, swapEndsT_window, swapEndsT_window]

theorem swapEndsT_perm (l : List Nat) : swapEndsT l ~ l := by
  match l with
  | [] => exact List.Perm.refl _
  | [x] => exact List.Perm.refl _
  | a :: b :: t =>
    obtain ⟨y, v, x, hw⟩ := exists_window_of_two_le (a :: b :: t) (by simp)
    rw [hw, swapEndsT_window]
    have h1 : x :: (v ++ [y]) ~ x :: (y :: v) := (List.perm_append_singleton y v).cons x
    have h2 : y :: (v ++ [x]) ~ y :: (x :: v) := (List.perm_append_singleton x v).cons y
    exact h1.trans ((List.Perm.swap y x v).trans h2.symm)

theorem swapEndsT_length (l : List Nat) : (swapEndsT l).length = l.length :=
  (swapEndsT_perm l).length_eq

theorem swapT_zero_eq_swapEnds (l : List Nat) (L : Nat) (h : l.length = L + 1) :
    swapT l L 0 = swapEndsT l := by
  match L, l, h with
  | 0, [x], _ => simp [swapT, swapEndsT]
  | L + 1, l, h =>
    obtain ⟨y, v, x, hw⟩ := exists_window_of_two_le l (by omega)
    have hv : v.length = L := by
      have hl := congrArg List.length hw
      simp at hl; omega
    rw [hw, swapEndsT_window]
    have hwin := swapT_window [] y v x
    simp only [List.nil_append, List.length_nil, Nat.zero_add] at hwin
    rw [← hv]
    exact hwin

theorem applyIdx_length (f : Nat → Nat) (a : List Nat) : (applyIdx f a).length = a.length := by
  simp [applyIdx]

theorem map_getD_range (a : List Nat) :
    (List.range a.length).map (fun j => a.getD j 0) = a := by
  apply List.ext_getElem (by simp)
  intro n h1 h2
  rw [List.getElem_map, List.getElem_range, List.getD_eq_getElem a 0 h2]

theorem applyIdx_id_eq (a : List Nat) : applyIdx (fun j => j) a = a := map_getD_range a

theorem applyIdx_getD (f : Nat → Nat) (a : List Nat) (k : Nat) (h : k < a.length) :
    (applyIdx f a).getD k 0 = a.getD (f k) 0 := by
  unfold applyIdx
  rw [List.getD_eq_getElem?_getD, List.getElem?_map, List.getElem?_range h]
  rfl

theorem applyIdx_comp (f g : Nat → Nat) (a : List Nat)
    (hf : ∀ j, j < a.length → f j < a.length) :
    applyIdx f (applyIdx g a) = applyIdx (fun j => g (f j)) a := by
  show (List.range (applyIdx g a).length).map _ = _
  rw [applyIdx_length]
  apply List.map_congr_left
  intro j hj
  exact applyIdx_getD g a (f j) (hf j (List.mem_range.mp hj))

theorem applyIdx_congr (f f' : Nat → Nat) (a : List Nat)
    (h : ∀ j, j < a.length → f j = f' j) : applyIdx f a = applyIdx f' a := by
  apply List.map_congr_left
  intro j hj
  rw [h j (List.mem_range.mp hj)]

theorem applyIdx_map_map (f : Nat → Nat) (a : List Nat) :
    applyIdx f a = ((List.range a.length).map f).map (fun k => a.getD k 0) := by
  rw [List.map_map]
  rfl

theorem applyIdx_perm (f : Nat → Nat) (a : List Nat)
    (h : (List.range a.length).map f ~ List.range a.length) : applyIdx f a ~ a := by
  rw [applyIdx_map_map]
  exact (h.map _).trans (by rw [map_getD_range a])

theorem applyIdx_getLast (f : Nat → Nat) (a : List Nat) (n : Nat) (h : a.length = n + 1) :
    (applyIdx f a).getLast? = some (a.getD (f n) 0) := by
  unfold applyIdx
  rw [h, List.range_succ, List.map_append, List.map_cons, List.map_nil,
    List.getLast?_concat]

theorem map_getD_range' (a : List Nat) : ∀ (n k : Nat), k + n ≤ a.length →
    (List.range' k n).map (fun j => a.getD j 0) = (a.drop k).take n := by
  intro n
  induction n with
  | zero => intro k _; simp
  | succ m ih =>
    intro k h
    rw [List.range'_succ, List.map_cons, ih (k + 1) (by omega)]
    have hk : k < a.length := by omega
    rw [List.drop_eq_getElem_cons hk, List.take_succ_cons, List.getD_eq_getElem a 0 hk]

theorem map_sub_one_range' : ∀ (n k : Nat),
    (List.range' (k + 1) n).map (fun j => j - 1) = List.range' k n := by
  intro n
  induction n with
  | zero => intro k; rfl
  | succ m ih =>
    intro k
    rw [List.range'_succ, List.range'_succ, List.map_cons, Nat.add_sub_cancel, ih (k + 1)]

theorem set_get_self (l : List Nat) : ∀ (n v : Nat), l.get? n = some v → l.set n v = l := by
  induction l with
  | nil => intro n v h; cases h
  | cons a t ih =>
    intro n v h
    match n with
    | 0 =>
      rw [List.get?_eq_getElem?] at h
      simp at h
      rw [h, List.set_cons_zero]
    | m + 1 =>
      rw [List.set_cons_succ, ih m v h]

theorem nodup_getD_inj (a : List Nat) (ha : a.Nodup) (i j : Nat)
    (hi : i < a.length) (hj : j < a.length) (h : a.getD i 0 = a.getD j 0) : i = j := by
  rw [List.getD_eq_getElem a 0 hi, List.getD_eq_getElem a 0 hj] at h
  exact (List.Nodup.getElem_inj_iff ha).mp h

theorem srcOdd_lt (L j : Nat) (hL : 2 ≤ L) (hj : j ≤ L) : srcOdd L j ≤ L := by
  unfold srcOdd
  split_ifs <;> (try exact (‹False›).elim) <;> omega

theorem srcOdd_zero (L : Nat) (hL : 2 ≤ L) : srcOdd L 0 = L := by
  unfold srcOdd
  split_ifs <;> (try exact (‹False›).elim) <;> omega

theorem srcOdd_one (L : Nat) (hL : 2 ≤ L) : srcOdd L 1 = L - 2 := by
  unfold srcOdd
  split_ifs <;> (try exact (‹False›).elim) <;> omega

theorem srcOdd_mid (L j : Nat) (h2 : 2 ≤ j) (hj : j + 3 ≤ L) : srcOdd L j = j - 1 := by
  unfold srcOdd
  split_ifs <;> (try exact (‹False›).elim) <;> omega

theorem srcOdd_sub_two (L : Nat) (hL : 4 ≤ L) : srcOdd L (L - 2) = L - 1 := by
  unfold srcOdd
  split_ifs <;> (try exact (‹False›).elim) <;> omega

theorem srcOdd_sub_one (L : Nat) (hL : 4 ≤ L) : srcOdd L (L - 1) = 0 := by
  unfold srcOdd
  split_ifs <;> (try exact (‹False›).elim) <;> omega

theorem srcOdd_top (L : Nat) (hL : 4 ≤ L) : srcOdd L L = L - 3 := by
  unfold srcOdd
  split_ifs <;> (try exact (‹False›).elim) <;> omega

theorem orbitOdd_length (L : Nat) (h2 : 2 ≤ L) : (orbitOdd L).length = L + 1 := by
  unfold orbitOdd
  split_ifs with h
  · rw [h]; rfl
  · simp only [List.length_append, List.length_cons, List.length_reverse,
      List.length_range', List.length_nil]
    omega

theorem orbitOdd_cons (L : Nat) (h2 : 2 ≤ L) :
    orbitOdd L = L :: (orbitOdd L).drop 1 := by
  unfold orbitOdd
  split_ifs with h
  · rw [h]; rfl
  · rfl

theorem orbitOdd_getD_zero (L : Nat) (h2 : 2 ≤ L) : (orbitOdd L).getD 0 0 = L := by
  rw [orbitOdd_cons L h2]
  rfl

theorem orbitOdd_nodup (L : Nat) (h2 : 2 ≤ L) : (orbitOdd L).Nodup := by
  unfold orbitOdd
  split_ifs with h
  · decide
  · have h3 : 3 ≤ L := by omega
    rw [List.nodup_append]
    refine ⟨?_, ?_, ?_⟩
    · rw [List.nodup_cons]
      refine ⟨?_, List.nodup_reverse.mpr (List.nodup_range' 1 (L - 3))⟩
      intro hc
      rw [List.mem_reverse, List.mem_range'] at hc
      omega
    · simp
      omega
    · intro x hx hy
      rcases List.mem_cons.mp hx with rfl | hx
      · simp at hy
        omega
      · rw [List.mem_reverse, List.mem_range'] at hx
        simp at hy
        omega

theorem orbitOdd_subset (L : Nat) (h2 : 2 ≤ L) :
    orbitOdd L ⊆ List.range (L + 1) := by
  intro x hx
  rw [List.mem_range]
  unfold orbitOdd at hx
  split_ifs at hx with h
  · simp at hx
    omega
  · rcases List.mem_append.mp hx with hx | hx
    · rcases List.mem_cons.mp hx with rfl | hx
      · omega
      · rw [List.mem_reverse, List.mem_range'] at hx
        omega
    · simp at hx
      omega

theorem orbitOdd_perm_range (L : Nat) (h2 : 2 ≤ L) :
    orbitOdd L ~ List.range (L + 1) := by
  apply List.Subperm.perm_of_length_le
  · exact (orbitOdd_nodup L h2).subperm (orbitOdd_subset L h2)
  · rw [List.length_range, orbitOdd_length L h2]

theorem map_srcOdd_orbit (L : Nat) (hev : L % 2 = 0) (h2 : 2 ≤ L) :
    (orbitOdd L).map (srcOdd L) = (orbitOdd L).drop 1 ++ [L] := by
  rcases eq_or_ne L 2 with rfl | hne
  · decide
  · have h5 : 4 ≤ L := by omega
    unfold orbitOdd
    rw [if_neg hne]
    rw [List.cons_append, List.map_cons, List.map_append, List.drop_succ_cons,
      List.drop_zero]
    rw [srcOdd_top L h5]
    have hmid : (List.range' 1 (L - 3)).reverse.map (srcOdd L)
        = (List.range' 1 (L - 4)).reverse ++ [L - 2] := by
      have hsplit : List.range' 1 (L - 3) = 1 :: List.range' 2 (L - 4) := by
        rw [show L - 3 = (L - 4) + 1 from by omega, List.range'_succ]
      rw [hsplit, List.reverse_cons, List.map_append, List.map_cons, List.map_nil,
        srcOdd_one L h2]
      congr 1
      rw [List.map_reverse]
      congr 1
      rw [← map_sub_one_range' (L - 4) 1]
      apply List.map_congr_left
      intro j hj
      rw [List.mem_range'] at hj
      exact srcOdd_mid L j (by omega) (by omega)
    rw [hmid, List.map_cons, List.map_cons, List.map_cons, List.map_nil,
      srcOdd_sub_two L h5, srcOdd_sub_one L h5, srcOdd_zero L h2]
    have hrev : (List.range' 1 (L - 3)).reverse
        = (L - 3) :: (List.range' 1 (L - 4)).reverse := by
      rw [show L - 3 = (L - 4) + 1 from by omega, List.range'_concat, List.reverse_append]
      simp only [List.reverse_cons, List.reverse_nil, List.nil_append, List.singleton_append]
      congr 1
      omega
    rw [hrev]
    simp [List.append_assoc]

theorem srcPow_le (L : Nat) (h2 : 2 ≤ L) : ∀ (c j : Nat), j ≤ L → (srcOdd L)^[c] j ≤ L := by
  intro c
  induction c with
  | zero => intro j hj; exact hj
  | succ m ih =>
    intro j hj
    rw [Function.iterate_succ_apply]
    exact ih _ (srcOdd_lt L j h2 hj)

theorem orbitOdd_getD_last (L : Nat) (hev : L % 2 = 0) (h2 : 2 ≤ L) :
    (orbitOdd L).getD L 0 = 0 := by
  rcases eq_or_ne L 2 with rfl | hne
  · decide
  · have h5 : 4 ≤ L := by omega
    unfold orbitOdd
    rw [if_neg hne]
    have hlen : (L :: (List.range' 1 (L - 3)).reverse).length = L - 2 := by
      simp only [List.length_cons, List.length_reverse, List.length_range']
      omega
    have h := getD_append_size (L :: (List.range' 1 (L - 3)).reverse) [L - 2, L - 1, 0] 2
    rw [hlen, show L - 2 + 2 = L from by omega] at h
    rw [h]
    rfl

theorem srcPow_orbit (L : Nat) (hev : L % 2 = 0) (h2 : 2 ≤ L) :
    ∀ c, c ≤ L → (srcOdd L)^[c] L = (orbitOdd L).getD c 0 := by
  intro c
  induction c with
  | zero => intro _; rw [Function.iterate_zero_apply, orbitOdd_getD_zero L h2]
  | succ m ih =>
    intro hc
    rw [Function.iterate_succ_apply', ih (by omega)]
    have hm : m < (orbitOdd L).length := by rw [orbitOdd_length L h2]; omega
    have hm1 : m + 1 < (orbitOdd L).length := by rw [orbitOdd_length L h2]; omega
    have h1 : ((orbitOdd L).map (srcOdd L))[m]? = some (srcOdd L ((orbitOdd L).getD m 0)) := by
      rw [List.getElem?_map, List.getElem?_eq_getElem hm,
        List.getD_eq_getElem (orbitOdd L) 0 hm]
      rfl
    rw [map_srcOdd_orbit L hev h2] at h1
    rw [List.getElem?_append, if_pos (by
      simp only [List.length_drop, orbitOdd_length L h2]
      omega)] at h1
    rw [List.getElem?_drop] at h1
    rw [show (1 : Nat) + m = m + 1 from Nat.add_comm 1 m] at h1
    rw [List.getElem?_eq_getElem hm1] at h1
    injection h1 with h1
    rw [List.getD_eq_getElem (orbitOdd L) 0 hm1]
    exact h1.symm

theorem map_srcOdd_range_perm (L : Nat) (hev : L % 2 = 0) (h2 : 2 ≤ L) :
    (List.range (L + 1)).map (srcOdd L) ~ List.range (L + 1) := by
  have step1 : (List.range (L + 1)).map (srcOdd L) ~ (orbitOdd L).map (srcOdd L) :=
    ((orbitOdd_perm_range L h2).symm).map (srcOdd L)
  rw [map_srcOdd_orbit L hev h2] at step1
  have step2 : (orbitOdd L).drop 1 ++ [L] ~ orbitOdd L := by
    have h := List.perm_append_singleton L ((orbitOdd L).drop 1)
    exact h.trans (by rw [← orbitOdd_cons L h2])
  exact (step1.trans step2).trans (orbitOdd_perm_range L h2)

theorem srcPow_range_perm (L : Nat) (hev : L % 2 = 0) (h2 : 2 ≤ L) :
    ∀ c, (List.range (L + 1)).map ((srcOdd L)^[c]) ~ List.range (L + 1) := by
  intro c
  induction c with
  | zero => simp
  | succ m ih =>
    rw [Function.iterate_succ, ← List.map_map]
    exact ((map_srcOdd_range_perm L hev h2).map _).trans ih

theorem srcPow_top_id (L : Nat) (hev : L % 2 = 0) (h2 : 2 ≤ L) :
    (srcOdd L)^[L + 1] L = L := by
  rw [Function.iterate_succ_apply', srcPow_orbit L hev h2 L (Nat.le_refl L),
    orbitOdd_getD_last L hev h2, srcOdd_zero L h2]

theorem srcPow_id (L : Nat) (hev : L % 2 = 0) (h2 : 2 ≤ L) :
    ∀ j, j ≤ L → (srcOdd L)^[L + 1] j = j := by
  intro j hj
  have hjm : j ∈ orbitOdd L := by
    rw [(orbitOdd_perm_range L h2).mem_iff, List.mem_range]
    omega
  obtain ⟨c, hc, hgc⟩ := List.getElem_of_mem hjm
  have hcL : c ≤ L := by
    rw [orbitOdd_length L h2] at hc
    omega
  have hj2 : (srcOdd L)^[c] L = j := by
    rw [srcPow_orbit L hev h2 c hcL, List.getD_eq_getElem (orbitOdd L) 0 hc, hgc]
  rw [← hj2, ← Function.iterate_add_apply, Nat.add_comm, Function.iterate_add_apply,
    srcPow_top_id L hev h2]

theorem oddStepEq (L : Nat) (hev : L % 2 = 0) (h2 : 2 ≤ L) (b : List Nat)
    (hb : b.length = L + 1) :
    swapT (heapNetC L (b.take L) ++ b.drop L) L 0 = applyIdx (srcOdd L) b := by
  rcases eq_or_ne L 2 with rfl | hne
  · obtain ⟨x, y, z, rfl⟩ := List.length_eq_three.mp hb
    rfl
  · have h4 : 4 ≤ L := by omega
    obtain ⟨t4, c4, e4⟩ := b.eq_nil_or_concat.resolve_left
      (fun h => by rw [h] at hb; simp at hb)
    have l4 : t4.length = L := by
      have hl := congrArg List.length e4
      rw [hb] at hl; simp at hl; omega
    obtain ⟨t3, c3, e3⟩ := t4.eq_nil_or_concat.resolve_left
      (fun h => by rw [h] at l4; simp at l4; omega)
    have l3 : t3.length = L - 1 := by
      have hl := congrArg List.length e3
      rw [l4] at hl; simp at hl; omega
    obtain ⟨t2, c2, e2⟩ := t3.eq_nil_or_concat.resolve_left
      (fun h => by rw [h] at l3; simp at l3; omega)
    have l2 : t2.length = L - 2 := by
      have hl := congrArg List.length e2
      rw [l3] at hl; simp at hl; omega
    obtain ⟨t1, c1, e1⟩ := t2.eq_nil_or_concat.resolve_left
      (fun h => by rw [h] at l2; simp at l2; omega)
    have l1 : t1.length = L - 3 := by
      have hl := congrArg List.length e1
      rw [l2] at hl; simp at hl; omega
    obtain ⟨c0, P, e0⟩ : ∃ c0 P, t1 = c0 :: P := by
      match t1, l1 with
      | c0 :: P, _ => exact ⟨c0, P, rfl⟩
      | [], l1 => simp at l1; omega
    have lP : P.length = L - 4 := by
      have hl := congrArg List.length e0
      rw [l1] at hl; simp at hl; omega
    have hbfull : b = c0 :: (P ++ [c1, c2, c3, c4]) := by
      rw [e4, e3, e2, e1, e0]
      simp [List.concat_eq_append, List.append_assoc]
    have htake : b.take L = c0 :: (P ++ [c1, c2, c3]) := by
      rw [hbfull, show L = (L - 1) + 1 from by omega, List.take_succ_cons]
      congr 1
      rw [show L - 1 = P.length + 3 from by omega, List.take_append]
      rfl
    have hdrop : b.drop L = [c4] := by
      rw [hbfull, show L = (L - 1) + 1 from by omega, List.drop_succ_cons,
        show L - 1 = P.length + 3 from by omega, List.drop_append]
      rfl
    have hdlast : (c0 :: (P ++ [c1, c2, c3])).dropLast = c0 :: (P ++ [c1, c2]) := by
      have hsh : c0 :: (P ++ [c1, c2, c3]) = (c0 :: (P ++ [c1, c2])) ++ [c3] := by
        simp [List.append_assoc]
      rw [hsh, List.dropLast_concat]
    have hglast : (c0 :: (P ++ [c1, c2, c3])).getLastD 0 = c3 := by
      have hsh : c0 :: (P ++ [c1, c2, c3]) = (c0 :: (P ++ [c1, c2])) ++ [c3] := by
        simp [List.append_assoc]
      rw [hsh, List.getLastD_eq_getLast?, List.getLast?_concat]
      rfl
    have hV : vEven (c0 :: (P ++ [c1, c2, c3])) = c3 :: (c2 :: ((P ++ [c1]) ++ [c0])) := by
      unfold vEven
      rw [hdlast, hglast]
      have hsh : P ++ [c1, c2] = (P ++ [c1]) ++ [c2] := by simp [List.append_assoc]
      rw [hsh, swapEndsT_window]
    have hnet : heapNetC L (c0 :: (P ++ [c1, c2, c3])) = (c1 :: ((c2 :: P) ++ [c3])) ++ [c0] := by
      unfold heapNetC
      rw [if_neg (by omega), hV]
      have hsh : c3 :: (c2 :: ((P ++ [c1]) ++ [c0])) = (c3 :: (c2 :: (P ++ [c1]))) ++ [c0] := by
        simp [List.append_assoc]
      rw [hsh]
      have hlen' : (c3 :: (c2 :: (P ++ [c1]))).length = L - 1 := by
        simp
        omega
      rw [← hlen', List.take_left, List.drop_left]
      have hsh2 : c3 :: (c2 :: (P ++ [c1])) = c3 :: ((c2 :: P) ++ [c1]) := by simp
      rw [hsh2, swapEndsT_window]
    have hpre : heapNetC L (b.take L) ++ b.drop L
        = c1 :: ((c2 :: (P ++ [c3, c0])) ++ [c4]) := by
      rw [htake, hdrop, hnet]
      simp [List.append_assoc]
    have hswap : swapT (c1 :: ((c2 :: (P ++ [c3, c0])) ++ [c4])) L 0
        = c4 :: ((c2 :: (P ++ [c3, c0])) ++ [c1]) := by
      have hw := swapT_window [] c1 (c2 :: (P ++ [c3, c0])) c4
      simp only [List.nil_append, List.length_nil, Nat.zero_add] at hw
      have hlv : (c2 :: (P ++ [c3, c0])).length = L - 1 := by
        simp
        omega
      rw [hlv] at hw
      rw [show L = L - 1 + 1 from by omega]
      exact hw
    have gd : ∀ k, b.getD (P.length + 1 + k) 0 = [c1, c2, c3, c4].getD k 0 := by
      intro k
      rw [hbfull, show P.length + 1 + k = (P.length + k) + 1 from by omega,
        List.getD_cons_succ]
      exact getD_append_size P [c1, c2, c3, c4] k
    have hr3 : List.range' (L - 2) 3 = [L - 2, L - 1, L] := by
      have ha : L - 2 + 1 = L - 1 := by omega
      have hb' : L - 1 + 1 = L := by omega
      rw [List.range'_succ, List.range'_succ, List.range'_succ, ha, hb']
      rfl
    have hrange : List.range (L + 1)
        = 0 :: (1 :: (List.range' 2 (L - 4) ++ [L - 2, L - 1, L])) := by
      rw [List.range_eq_range', ← hr3]
      rw [show L + 1 = (L - 1) + 1 + 1 from by omega, List.range'_succ, List.range'_succ]
      congr 2
      have hc : L - 2 = 2 + 1 * (L - 4) := by omega
      rw [hc, List.range'_append]
      congr 1
      omega
    have hmid : (List.range' 2 (L - 4)).map (fun j => b.getD (srcOdd L j) 0) = P := by
      have hcongr : (List.range' 2 (L - 4)).map (fun j => b.getD (srcOdd L j) 0)
          = (List.range' 2 (L - 4)).map (fun j => b.getD (j - 1) 0) := by
        apply List.map_congr_left
        intro j hj
        rw [List.mem_range'] at hj
        rw [srcOdd_mid L j (by omega) (by omega)]
      have hshift : (List.range' 2 (L - 4)).map (fun j => b.getD (j - 1) 0)
          = ((List.range' 2 (L - 4)).map (fun j => j - 1)).map (fun k => b.getD k 0) := by
        rw [List.map_map]
        rfl
      rw [hcongr, hshift, map_sub_one_range' (L - 4) 1,
        map_getD_range' b (L - 4) 1 (by omega)]
      rw [hbfull, List.drop_succ_cons, List.drop_zero, ← lP, List.take_left]
    have hRHS : applyIdx (srcOdd L) b = c4 :: (c2 :: (P ++ [c3, c0, c1])) := by
      unfold applyIdx
      rw [hb, hrange, List.map_cons, List.map_cons, List.map_append]
      rw [hmid]
      have g0 : b.getD (srcOdd L 0) 0 = c4 := by
        rw [srcOdd_zero L h2, show L = P.length + 1 + 3 from by omega, gd 3]
        rfl
      have g1 : b.getD (srcOdd L 1) 0 = c2 := by
        rw [srcOdd_one L h2, show L - 2 = P.length + 1 + 1 from by omega, gd 1]
        rfl
      have gm2 : b.getD (srcOdd L (L - 2)) 0 = c3 := by
        rw [srcOdd_sub_two L h4, show L - 1 = P.length + 1 + 2 from by omega, gd 2]
        rfl
      have gm1 : b.getD (srcOdd L (L - 1)) 0 = c0 := by
        rw [srcOdd_sub_one L h4, hbfull]
        rfl
      have gt : b.getD (srcOdd L L) 0 = c1 := by
        rw [srcOdd_top L h4, show L - 3 = P.length + 1 + 0 from by omega, gd 0]
        rfl
      rw [List.map_cons, List.map_cons, List.map_cons, List.map_nil]
      rw [g0, g1, gm2, gm1, gt]
    rw [hpre, hswap, hRHS]
    simp [List.append_assoc]

theorem drop_take_one (V : List Nat) (c : Nat) (h : c < V.length) :
    (V.drop c).take 1 = [V.getD c 0] := by
  rw [List.drop_eq_getElem_cons h, List.take_succ_cons, List.take_zero,
    List.getD_eq_getElem V 0 h]

theorem take_concat_getD (V : List Nat) (d : Nat) (h : d < V.length) :
    V.take (d + 1) = V.take d ++ [V.getD d 0] := by
  rw [List.take_succ, List.getElem?_eq_getElem h, List.getD_eq_getElem V 0 h]
  rfl

theorem erI_length (V : List Nat) (L c : Nat) (hV : V.length = L + 1) (hc : c ≤ L) :
    (V.take c ++ V.drop (c + 1)).length = L := by
  simp only [List.length_append, List.length_take, List.length_drop]
  omega

theorem evenBlockP_length (V : List Nat) (L c : Nat) (hV : V.length = L + 1) (hc : c ≤ L) :
    (evenBlockP V c).length = L := by
  unfold evenBlockP
  split_ifs
  · rw [swapEndsT_length]
    exact erI_length V L c hV hc
  · exact erI_length V L c hV hc

theorem evenBlock_take (V : List Nat) (L c : Nat) (hV : V.length = L + 1) (hc : c ≤ L) :
    (evenBlock V c).take L = evenBlockP V c := by
  unfold evenBlock
  rw [← evenBlockP_length V L c hV hc, List.take_left]

theorem evenBlock_drop (V : List Nat) (L c : Nat) (hV : V.length = L + 1) (hc : c ≤ L) :
    (evenBlock V c).drop L = [V.getD c 0] := by
  unfold evenBlock
  rw [← evenBlockP_length V L c hV hc, List.drop_left, drop_take_one V c (by omega)]

theorem evenStepEq (L : Nat) (hod : L % 2 = 1) (V : List Nat)
    (hV : V.length = L + 1) (c : Nat) (hc1 : 1 ≤ c) (hcL : c ≤ L) :
    swapT (swapEndsT (evenBlockP V (c - 1)) ++ [V.getD (c - 1) 0]) L (c - 1)
      = evenBlock V c := by
  obtain ⟨d, rfl⟩ : ∃ d, c = d + 1 := ⟨c - 1, by omega⟩
  rw [Nat.add_sub_cancel]
  have hdL : d ≤ L - 1 := by omega
  rcases Nat.even_or_odd d with hdev | hdodd
  · have hdev2 : d % 2 = 0 := Nat.even_iff.mp hdev
    have hPd : evenBlockP V d = swapEndsT (V.take d ++ V.drop (d + 1)) := by
      unfold evenBlockP
      rw [if_pos hdev2]
    rw [hPd, swapEndsT_swapEndsT]
    have hd1 : d + 1 < V.length := by omega
    have hshape : (V.take d ++ V.drop (d + 1)) ++ [V.getD d 0]
        = V.take d ++ ((V.getD (d + 1) 0) :: (V.drop (d + 2) ++ [V.getD d 0])) := by
      rw [List.drop_eq_getElem_cons hd1, List.getD_eq_getElem V 0 hd1]
      simp only [List.cons_append, List.append_assoc]
    rw [hshape]
    have hw := swapT_window (V.take d) (V.getD (d + 1) 0) (V.drop (d + 2)) (V.getD d 0)
    have hul : (V.take d).length = d := by
      rw [List.length_take]
      omega
    have hvl : (V.drop (d + 2)).length = L - 1 - d := by
      rw [List.length_drop]
      omega
    rw [hul, hvl] at hw
    rw [show L = d + (L - 1 - d) + 1 from by omega, hw]
    unfold evenBlock evenBlockP
    rw [if_neg (by omega), drop_take_one V (d + 1) (by omega),
      take_concat_getD V d (by omega)]
    simp [List.append_assoc]
  · have hdodd2 : d % 2 = 1 := Nat.odd_iff.mp hdodd
    have hd1 : 1 ≤ d := by omega
    have hdL2 : d ≤ L - 2 := by omega
    have hPd : evenBlockP V d = V.take d ++ V.drop (d + 1) := by
      unfold evenBlockP
      rw [if_neg (by omega)]
    obtain ⟨V0, Vt, rfl⟩ : ∃ V0 Vt, V = V0 :: Vt := by
      match V, hV with
      | v :: t, _ => exact ⟨v, t, rfl⟩
    have hVt : Vt.length = L := by
      simp only [List.length_cons] at hV
      omega
    have htk : (V0 :: Vt).take d = V0 :: Vt.take (d - 1) := by
      conv_lhs => rw [show d = (d - 1) + 1 from by omega]
      rw [List.take_succ_cons]
    have hdr : (V0 :: Vt).drop (d + 1) = Vt.drop d := List.drop_succ_cons
    have hR : Vt.drop d = Vt.getD d 0 :: Vt.drop (d + 1) := by
      rw [List.drop_eq_getElem_cons (by omega), List.getD_eq_getElem Vt 0 (by omega)]
    have hRR : Vt.drop (d + 1) ≠ [] := by
      intro hc
      have := congrArg List.length hc
      simp only [List.length_drop, List.length_nil] at this
      omega
    have hM : Vt.drop (d + 1) = (Vt.drop (d + 1)).dropLast ++ [(Vt.drop (d + 1)).getLast hRR] :=
      (List.dropLast_append_getLast hRR).symm
    have hgd : (V0 :: Vt).getD (d + 1) 0 = Vt.getD d 0 := List.getD_cons_succ
    have hgdd : (V0 :: Vt).getD d 0 = Vt.getD (d - 1) 0 := by
      conv_lhs => rw [show d = (d - 1) + 1 from by omega]
      rw [List.getD_cons_succ]
    rw [hPd, htk, hdr, hR, hM, hgdd]
    set M := (Vt.drop (d + 1)).dropLast with hMdef
    set zR := (Vt.drop (d + 1)).getLast hRR with hzdef
    set vc := Vt.getD d 0 with hvcdef
    set vd := Vt.getD (d - 1) 0 with hvddef
    have hMl : M.length = L - d - 2 := by
      rw [hMdef, List.length_dropLast, List.length_drop]
      omega
    have hsw1 : (V0 :: Vt.take (d - 1)) ++ vc :: (M ++ [zR])
        = V0 :: ((Vt.take (d - 1) ++ (vc :: M)) ++ [zR]) := by
      simp [List.append_assoc]
    rw [hsw1, swapEndsT_window]
    have hsw2 : (zR :: ((Vt.take (d - 1) ++ (vc :: M)) ++ [V0])) ++ [vd]
        = (zR :: Vt.take (d - 1)) ++ (vc :: ((M ++ [V0]) ++ [vd])) := by
      simp [List.append_assoc]
    rw [hsw2]
    have hw := swapT_window (zR :: Vt.take (d - 1)) vc (M ++ [V0]) vd
    have hul : (zR :: Vt.take (d - 1)).length = d := by
      simp only [List.length_cons, List.length_take]
      omega
    have hvl : (M ++ [V0]).length = L - d - 1 := by
      simp only [List.length_append, List.length_cons, List.length_nil, hMl]
      omega
    rw [hul, hvl] at hw
    rw [show L = d + (L - d - 1) + 1 from by omega, hw]
    unfold evenBlock evenBlockP
    rw [if_pos (by omega)]
    have hdr2 : (V0 :: Vt).drop (d + 1 + 1) = Vt.drop (d + 1) := List.drop_succ_cons
    have htk2 : (V0 :: Vt).take (d + 1) = V0 :: Vt.take d := List.take_succ_cons
    have htk3 : Vt.take d = Vt.take (d - 1) ++ [vd] := by
      rw [hvddef]
      conv_lhs => rw [show d = (d - 1) + 1 from by omega]
      exact take_concat_getD Vt (d - 1) (by omega)
    rw [drop_take_one (V0 :: Vt) (d + 1) (by simp; omega), hgd, htk2, hdr2, hM, htk3]
    have hsw3 : (V0 :: (Vt.take (d - 1) ++ [vd])) ++ (M ++ [zR])
        = V0 :: ((Vt.take (d - 1) ++ (vd :: M)) ++ [zR]) := by
      simp [List.append_assoc]
    rw [hsw3, swapEndsT_window]
    simp [List.append_assoc]

theorem heapLevelAux_len (sub : List Nat → List Nat × List (List Nat)) (L : Nat)
    (hsub : ∀ q, (sub q).1.length = q.length) :
    ∀ (rem c : Nat) (p : List Nat), (heapLevelAux sub L rem c p).1.length = p.length := by
  intro rem
  induction rem with
  | zero => intro c p; rfl
  | succ m ih =>
    intro c p
    simp only [heapLevelAux]
    rw [ih, hsub, swapT_length]

theorem heapFull_len : ∀ (L : Nat) (p : List Nat), (heapFull L p).1.length = p.length := by
  intro L
  induction L with
  | zero => intro p; rfl
  | succ m ih =>
    intro p
    simp only [heapFull]
    rw [heapLevelAux_len _ _ (fun q => ih q), ih]

theorem swapT_append (b t : List Nat) (i j : Nat) (hi : i < b.length) (hj : j < b.length) :
    swapT (b ++ t) i j = swapT b i j ++ t := by
  unfold swapT
  rw [getD_append_small _ _ _ hi, getD_append_small _ _ _ hj,
    set_append_small _ _ _ _ hi,
    set_append_small _ _ _ _ (by rw [List.length_set]; exact hj)]

theorem heapLevelAux_split (sub : List Nat → List Nat × List (List Nat)) (L : Nat)
    (t : List Nat)
    (hlen : ∀ q, (sub q).1.length = q.length)
    (hsplit : ∀ q, L < q.length → sub (q ++ t) = ((sub q).1 ++ t, (sub q).2.map (· ++ t))) :
    ∀ (rem c : Nat) (p : List Nat), rem + c ≤ L + 1 → L < p.length →
      heapLevelAux sub L rem c (p ++ t)
        = ((heapLevelAux sub L rem c p).1 ++ t,
           (heapLevelAux sub L rem c p).2.map (· ++ t)) := by
  intro rem
  induction rem with
  | zero => intro c p _ _; rfl
  | succ m ih =>
    intro c p hcm hp
    simp only [heapLevelAux]
    have hidx : heapSwapIdx L c < p.length := by
      unfold heapSwapIdx
      split_ifs
      · omega
      · omega
    rw [swapT_append p t L (heapSwapIdx L c) hp hidx,
      hsplit (swapT p L (heapSwapIdx L c)) (by rw [swapT_length]; exact hp),
      ih (c + 1) (sub (swapT p L (heapSwapIdx L c))).1 (by omega)
        (by rw [hlen, swapT_length]; exact hp)]
    simp [List.map_append]

theorem heapFull_split : ∀ (L : Nat) (b t : List Nat), L < b.length →
    heapFull L (b ++ t) = ((heapFull L b).1 ++ t, (heapFull L b).2.map (· ++ t)) := by
  intro L
  induction L with
  | zero => intro b t _; rfl
  | succ m ih =>
    intro b t h
    simp only [heapFull]
    rw [ih b t (by omega)]
    rw [heapLevelAux_split (heapFull m) (m + 1) t (heapFull_len m)
      (fun q hq => ih q t (by omega)) (m + 1) 1 (heapFull m b).1 (by omega)
      (by rw [heapFull_len]; exact h)]
    simp [List.map_append]

theorem length_permutations2 (l : List Nat) :
    l.permutations'.length = l.length.factorial := by
  rw [← (List.permutations_perm_permutations' l).length_eq, List.length_permutations]

theorem nodup_permutations2 (l : List Nat) (h : l.Nodup) : l.permutations'.Nodup :=
  ((List.permutations_perm_permutations' l).nodup_iff).mp (List.nodup_permutations l h)

theorem heapLoop_correct (L : Nat) (hL : 1 ≤ L) (a : List Nat)
    (ha : a.length = L + 1) (hnd : a.Nodup)
    (sub_ih : ∀ b : List Nat, b.length = L → b.Nodup →
      (heapFull (L - 1) b).1 = heapNetC L b ∧ b :: (heapFull (L - 1) b).2 ~ b.permutations')
    (B : Nat → List Nat)
    (hBperm : ∀ c, c ≤ L → B c ~ a)
    (hstep : ∀ c, 1 ≤ c → c ≤ L →
      swapT (heapNetC L ((B (c - 1)).take L) ++ (B (c - 1)).drop L) L (heapSwapIdx L c) = B c)
    (htails : ∀ c c', c ≤ L → c' ≤ L → c ≠ c' → (B c).getLast? ≠ (B c').getLast?) :
    ∀ (rem c : Nat), rem + c = L + 1 → 1 ≤ c →
      ∃ E : List (List Nat),
        heapLevelAux (heapFull (L - 1)) L rem c
            (heapNetC L ((B (c - 1)).take L) ++ (B (c - 1)).drop L)
          = (heapNetC L ((B L).take L) ++ (B L).drop L, E) ∧
        E.length = rem * Nat.factorial L ∧
        (∀ e, e ∈ E → e ~ a) ∧
        E.Nodup ∧
        (∀ e, e ∈ E → ∃ c', c ≤ c' ∧ c' ≤ L ∧ e.getLast? = (B c').getLast?) := by
  intro rem
  induction rem with
  | zero =>
    intro c hc _
    have hcL : c - 1 = L := by omega
    refine ⟨[], ?_, by simp, by simp, List.nodup_nil, by simp⟩
    rw [hcL]
    rfl
  | succ m ih =>
    intro c hc hc1
    have hcL : c ≤ L := by omega
    have hBlen : ∀ k, k ≤ L → (B k).length = L + 1 := fun k hk => by
      rw [(hBperm k hk).length_eq, ha]
    have hBnd : ∀ k, k ≤ L → (B k).Nodup := fun k hk =>
      ((hBperm k hk).nodup_iff).mpr hnd
    have htl : ((B c).take L).length = L := by
      rw [List.length_take, hBlen c hcL]
      omega
    have htnd : ((B c).take L).Nodup := (List.take_sublist L (B c)).nodup (hBnd c hcL)
    have hdne : (B c).drop L ≠ [] := by
      intro hcon
      have := congrArg List.length hcon
      rw [List.length_drop, hBlen c hcL] at this
      simp at this
    obtain ⟨hsub1, hsub2⟩ := sub_ih ((B c).take L) htl htnd
    have hsplit := heapFull_split (L - 1) ((B c).take L) ((B c).drop L)
      (by rw [htl]; omega)
    rw [List.take_append_drop] at hsplit
    set E' := (heapFull (L - 1) ((B c).take L)).2 with hE'
    have hElen : E'.length + 1 = Nat.factorial L := by
      have := hsub2.length_eq
      rw [length_permutations2, htl] at this
      simp only [List.length_cons] at this
      omega
    have hEmem : ∀ r, r ∈ E' → r ~ (B c).take L := by
      intro r hr
      have : r ∈ ((B c).take L).permutations' :=
        hsub2.mem_iff.mp (List.mem_cons_of_mem _ hr)
      exact List.mem_permutations'.mp this
    have hEnd : (((B c).take L) :: E').Nodup :=
      (hsub2.nodup_iff).mpr (nodup_permutations2 _ htnd)
    obtain ⟨Er, hEr1, hEr2, hEr3, hEr4, hEr5⟩ := ih (c + 1) (by omega) (by omega)
    simp only [heapLevelAux]
    rw [hstep c hc1 hcL, hsplit, hsub1]
    rw [show c + 1 - 1 = c from by omega] at hEr1
    rw [hEr1]
    refine ⟨B c :: (E'.map (· ++ (B c).drop L) ++ Er), rfl, ?_, ?_, ?_, ?_⟩
    · simp only [List.length_cons, List.length_append, List.length_map, hEr2]
      rw [Nat.succ_mul]
      omega
    · intro e he
      rcases List.mem_cons.mp he with rfl | he
      · exact hBperm c hcL
      rcases List.mem_append.mp he with he | he
      · obtain ⟨r, hr, rfl⟩ := List.mem_map.mp he
        calc r ++ (B c).drop L
            ~ (B c).take L ++ (B c).drop L := (hEmem r hr).append_right _
          _ = B c := List.take_append_drop _ _
          _ ~ a := hBperm c hcL
      · exact hEr3 e he
    · rw [List.nodup_cons, List.nodup_append]
      have hlast : ∀ e, e ∈ E'.map (· ++ (B c).drop L) → e.getLast? = (B c).getLast? := by
        intro e he
        obtain ⟨r, _, rfl⟩ := List.mem_map.mp he
        rw [List.getLast?_append_of_ne_nil _ hdne]
        conv_rhs => rw [← List.take_append_drop L (B c)]
        rw [List.getLast?_append_of_ne_nil _ hdne]
      refine ⟨?_, ?_, ?_, ?_⟩
      · intro hcon
        rcases List.mem_append.mp hcon with hcon | hcon
        · obtain ⟨r, hr, hreq⟩ := List.mem_map.mp hcon
          have hreq2 : r ++ (B c).drop L = B c := hreq
          have : r = (B c).take L := by
            apply List.append_left_injective ((B c).drop L)
            show r ++ (B c).drop L = (B c).take L ++ (B c).drop L
            rw [hreq2, List.take_append_drop]
          rw [this] at hr
          exact (List.nodup_cons.mp hEnd).1 hr
        · obtain ⟨c', hcc', hc'L, hceq⟩ := hEr5 (B c) hcon
          exact htails c c' hcL hc'L (by omega) hceq
      · exact (List.Nodup.map (List.append_left_injective _) (List.nodup_cons.mp hEnd).2)
      · exact hEr4
      · intro e he1 he2
        obtain ⟨c', hcc', hc'L, hceq⟩ := hEr5 e he2
        have h1 := hlast e he1
        rw [h1] at hceq
        exact htails c c' hcL hc'L (by omega) hceq
    · intro e he
      rcases List.mem_cons.mp he with rfl | he
      · exact ⟨c, Nat.le_refl c, hcL, rfl⟩
      rcases List.mem_append.mp he with he | he
      · refine ⟨c, Nat.le_refl c, hcL, ?_⟩
        obtain ⟨r, _, rfl⟩ := List.mem_map.mp he
        rw [List.getLast?_append_of_ne_nil _ hdne]
        conv_rhs => rw [← List.take_append_drop L (B c)]
        rw [List.getLast?_append_of_ne_nil _ hdne]
      · obtain ⟨c', hcc', hc'L, hceq⟩ := hEr5 e he
        exact ⟨c', by omega, hc'L, hceq⟩

theorem drop_pen_singleton (q : List Nat) (n : Nat) (h : q.length = n + 1) :
    q.drop n = [q.getD n 0] := by
  rw [List.drop_eq_getElem_cons (by omega), List.getD_eq_getElem q 0 (by omega)]
  congr 1
  rw [List.drop_eq_nil_iff]
  omega

theorem vEven_length (q : List Nat) (h : 1 ≤ q.length) : (vEven q).length = q.length := by
  unfold vEven
  rw [List.length_cons, swapEndsT_length, List.length_dropLast]
  omega

theorem vEven_perm (q : List Nat) (h : q ≠ []) : vEven q ~ q := by
  unfold vEven
  calc q.getLastD 0 :: swapEndsT q.dropLast
      ~ q.getLastD 0 :: q.dropLast := (swapEndsT_perm _).cons _
    _ ~ q.dropLast ++ [q.getLastD 0] := (List.perm_append_singleton _ _).symm
    _ = q := by
        rw [List.getLastD_eq_getLast?, List.getLast?_eq_getLast q h]
        exact List.dropLast_append_getLast h

theorem heapNetC_len (s : Nat) (q : List Nat) (h : 1 ≤ q.length) :
    (heapNetC s q).length = q.length := by
  unfold heapNetC
  split_ifs
  · exact swapEndsT_length q
  · rw [List.length_append, swapEndsT_length, List.length_take, List.length_drop,
      vEven_length q h]
    omega

theorem swapT_invol (X : List Nat) (L : Nat) (hL : 1 ≤ L) (h : X.length = L + 1) :
    swapT (swapT X L 0) L 0 = X := by
  obtain ⟨y, v, x, rfl⟩ := exists_window_of_two_le X (by omega)
  have hv : v.length = L - 1 := by
    simp only [List.length_cons, List.length_append, List.length_nil] at h
    omega
  have hw := swapT_window [] y v x
  simp only [List.nil_append, List.length_nil, Nat.zero_add] at hw
  have hw2 := swapT_window [] x v y
  simp only [List.nil_append, List.length_nil, Nat.zero_add] at hw2
  rw [show L = v.length + 1 from by omega, hw, hw2]

theorem evenBlock_zero (a : List Nat) (L : Nat) (ha : a.length = L + 1) :
    evenBlock (vEven a) 0 = a := by
  have hne : a ≠ [] := by
    intro hc
    rw [hc] at ha
    simp at ha
  unfold evenBlock evenBlockP
  rw [if_pos (by omega)]
  have h1 : (vEven a).take 0 ++ (vEven a).drop (0 + 1) = swapEndsT a.dropLast := by
    rw [List.take_zero, List.nil_append]
    rfl
  have h2 : ((vEven a).drop 0).take 1 = [a.getLastD 0] := by
    rw [List.drop_zero]
    rfl
  rw [h1, h2, swapEndsT_swapEndsT, List.getLastD_eq_getLast?,
    List.getLast?_eq_getLast a hne]
  exact List.dropLast_append_getLast hne

theorem evenBlock_perm (V : List Nat) (L c : Nat) (hV : V.length = L + 1) (hc : c ≤ L) :
    evenBlock V c ~ V := by
  have hc1 : c < V.length := by omega
  have hbase : (V.take c ++ V.drop (c + 1)) ++ [V.getD c 0] ~ V := by
    calc (V.take c ++ V.drop (c + 1)) ++ [V.getD c 0]
        ~ V.take c ++ (V.drop (c + 1) ++ [V.getD c 0]) := by
          rw [List.append_assoc]
      _ ~ V.take c ++ (V.getD c 0 :: V.drop (c + 1)) :=
          List.Perm.append_left _ (List.perm_append_singleton _ _)
      _ = V := by
          rw [List.getD_eq_getElem V 0 hc1, ← List.drop_eq_getElem_cons hc1,
            List.take_append_drop]
  unfold evenBlock evenBlockP
  rw [drop_take_one V c hc1]
  split_ifs
  · exact ((swapEndsT_perm _).append_right _).trans hbase
  · exact hbase

theorem evenBlock_getLast (V : List Nat) (L c : Nat) (hV : V.length = L + 1) (hc : c ≤ L) :
    (evenBlock V c).getLast? = some (V.getD c 0) := by
  unfold evenBlock
  rw [drop_take_one V c (by omega), List.getLast?_concat]

theorem evenFinal (a : List Nat) (L : Nat) (hod : L % 2 = 1) (ha : a.length = L + 1) :
    heapNetC L ((evenBlock (vEven a) L).take L) ++ (evenBlock (vEven a) L).drop L
      = heapNetC (L + 1) a := by
  have hV : (vEven a).length = L + 1 := by
    rw [vEven_length a (by omega)]
    exact ha
  rw [evenBlock_take (vEven a) L L hV (Nat.le_refl L),
    evenBlock_drop (vEven a) L L hV (Nat.le_refl L)]
  have hP : evenBlockP (vEven a) L = (vEven a).take L := by
    unfold evenBlockP
    rw [if_neg (by omega), List.drop_eq_nil_iff.mpr (by omega), List.append_nil]
  rw [hP]
  unfold heapNetC
  rw [if_pos hod, if_neg (by omega)]
  rw [Nat.add_sub_cancel]
  congr 1
  rw [drop_pen_singleton (vEven a) L hV]

theorem oddBlock_zero (L : Nat) (a : List Nat) : applyIdx ((srcOdd L)^[0]) a = a := by
  have h : applyIdx ((srcOdd L)^[0]) a = applyIdx (fun j => j) a :=
    applyIdx_congr _ _ a (fun j _ => Function.iterate_zero_apply _ j)
  rw [h, applyIdx_id_eq]

theorem oddBlock_perm (L : Nat) (hev : L % 2 = 0) (h2 : 2 ≤ L) (a : List Nat)
    (ha : a.length = L + 1) (c : Nat) : applyIdx ((srcOdd L)^[c]) a ~ a := by
  apply applyIdx_perm
  rw [ha]
  exact srcPow_range_perm L hev h2 c

theorem oddBlock_step (L : Nat) (hev : L % 2 = 0) (h2 : 2 ≤ L) (a : List Nat)
    (ha : a.length = L + 1) (c : Nat) (hc : 1 ≤ c) :
    swapT (heapNetC L ((applyIdx ((srcOdd L)^[c - 1]) a).take L)
        ++ (applyIdx ((srcOdd L)^[c - 1]) a).drop L) L 0
      = applyIdx ((srcOdd L)^[c]) a := by
  have hlen : (applyIdx ((srcOdd L)^[c - 1]) a).length = L + 1 := by
    rw [applyIdx_length, ha]
  rw [oddStepEq L hev h2 _ hlen]
  rw [applyIdx_comp (srcOdd L) ((srcOdd L)^[c - 1]) a
    (fun j hj => by
      have := srcOdd_lt L j h2 (by omega)
      omega)]
  apply applyIdx_congr
  intro j hj
  conv_rhs => rw [show c = (c - 1) + 1 from by omega]
  rw [Function.iterate_succ_apply]

theorem oddBlock_getLast (L : Nat) (hev : L % 2 = 0) (h2 : 2 ≤ L) (a : List Nat)
    (ha : a.length = L + 1) (c : Nat) (hc : c ≤ L) :
    (applyIdx ((srcOdd L)^[c]) a).getLast? = some (a.getD ((orbitOdd L).getD c 0) 0) := by
  rw [applyIdx_getLast _ a L ha, srcPow_orbit L hev h2 c hc]

theorem oddFinal (L : Nat) (hev : L % 2 = 0) (h2 : 2 ≤ L) (a : List Nat)
    (ha : a.length = L + 1) :
    heapNetC L ((applyIdx ((srcOdd L)^[L]) a).take L)
        ++ (applyIdx ((srcOdd L)^[L]) a).drop L
      = heapNetC (L + 1) a := by
  have hstep := oddBlock_step L hev h2 a ha (L + 1) (by omega)
  rw [Nat.add_sub_cancel] at hstep
  have hid : applyIdx ((srcOdd L)^[L + 1]) a = a := by
    have h : applyIdx ((srcOdd L)^[L + 1]) a = applyIdx (fun j => j) a := by
      apply applyIdx_congr
      intro j hj
      exact srcPow_id L hev h2 j (by omega)
    rw [h, applyIdx_id_eq]
  rw [hid] at hstep
  have hXlen : (heapNetC L ((applyIdx ((srcOdd L)^[L]) a).take L)
      ++ (applyIdx ((srcOdd L)^[L]) a).drop L).length = L + 1 := by
    rw [List.length_append,
      heapNetC_len L _ (by
        rw [List.length_take, applyIdx_length, ha]
        omega),
      List.length_take, List.length_drop, applyIdx_length, ha]
    omega
  have hX := congrArg (fun l => swapT l L 0) hstep
  simp only at hX
  rw [swapT_invol _ L (by omega) hXlen] at hX
  rw [hX, swapT_zero_eq_swapEnds a L ha]
  unfold heapNetC
  rw [if_pos (by omega)]

theorem heapFull_correct_level (K : Nat) (a : List Nat) (ha : a.length = K + 2)
    (hnd : a.Nodup)
    (sub_ih : ∀ b : List Nat, b.length = K + 1 → b.Nodup →
      (heapFull K b).1 = heapNetC (K + 1) b ∧ b :: (heapFull K b).2 ~ b.permutations')
    (B : Nat → List Nat)
    (hB0 : B 0 = a)
    (hBperm : ∀ c, c ≤ K + 1 → B c ~ a)
    (hstep : ∀ c, 1 ≤ c → c ≤ K + 1 →
      swapT (heapNetC (K + 1) ((B (c - 1)).take (K + 1)) ++ (B (c - 1)).drop (K + 1))
        (K + 1) (heapSwapIdx (K + 1) c) = B c)
    (htails : ∀ c c', c ≤ K + 1 → c' ≤ K + 1 → c ≠ c' → (B c).getLast? ≠ (B c').getLast?)
    (hfin : heapNetC (K + 1) ((B (K + 1)).take (K + 1)) ++ (B (K + 1)).drop (K + 1)
      = heapNetC (K + 2) a) :
    (heapFull (K + 1) a).1 = heapNetC (K + 2) a ∧
      a :: (heapFull (K + 1) a).2 ~ a.permutations' := by
  have ha1 : a.length = (K + 1) + 1 := ha
  obtain ⟨E, hE1, hE2, hE3, hE4, hE5⟩ :=
    heapLoop_correct (K + 1) (by omega) a ha1 hnd sub_ih B hBperm hstep htails
      (K + 1) 1 (by omega) (by omega)
  simp only [Nat.add_sub_cancel, Nat.sub_self] at hE1
  have htl : (a.take (K + 1)).length = K + 1 := by
    rw [List.length_take]
    omega
  have htnd : (a.take (K + 1)).Nodup := (List.take_sublist _ a).nodup hnd
  have hD : a.drop (K + 1) ≠ [] := by
    intro hc
    have := congrArg List.length hc
    rw [List.length_drop] at this
    simp at this
    omega
  obtain ⟨hsub1, hsub2⟩ := sub_ih (a.take (K + 1)) htl htnd
  have hsplit := heapFull_split K (a.take (K + 1)) (a.drop (K + 1)) (by omega)
  rw [List.take_append_drop] at hsplit
  set E0 := (heapFull K (a.take (K + 1))).2 with hE0def
  simp only [heapFull]
  rw [hsplit, hsub1]
  rw [hB0] at hE1
  rw [hE1, hfin]
  refine ⟨rfl, ?_⟩
  have hblock : a :: (E0.map (· ++ a.drop (K + 1)) ++ E)
      = ((a.take (K + 1) :: E0).map (· ++ a.drop (K + 1))) ++ E := by
    rw [List.map_cons, List.take_append_drop]
    rfl
  rw [hblock]
  have hlastD : ∀ e, e ∈ (a.take (K + 1) :: E0).map (· ++ a.drop (K + 1)) →
      e.getLast? = (B 0).getLast? := by
    intro e he
    obtain ⟨r, _, rfl⟩ := List.mem_map.mp he
    rw [hB0, List.getLast?_append_of_ne_nil _ hD]
    conv_rhs => rw [← List.take_append_drop (K + 1) a]
    rw [List.getLast?_append_of_ne_nil _ hD]
  have hmem : ∀ e, e ∈ (a.take (K + 1) :: E0).map (· ++ a.drop (K + 1)) → e ~ a := by
    intro e he
    obtain ⟨r, hr, rfl⟩ := List.mem_map.mp he
    have hr2 : r ~ a.take (K + 1) :=
      List.mem_permutations'.mp (hsub2.mem_iff.mp hr)
    calc r ++ a.drop (K + 1)
        ~ a.take (K + 1) ++ a.drop (K + 1) := hr2.append_right _
      _ = a := List.take_append_drop _ _
  have hnodup : (((a.take (K + 1) :: E0).map (· ++ a.drop (K + 1))) ++ E).Nodup := by
    rw [List.nodup_append]
    refine ⟨?_, hE4, ?_⟩
    · exact List.Nodup.map (List.append_left_injective _)
        (hsub2.nodup_iff.mpr (nodup_permutations2 _ htnd))
    · intro e he1 he2
      obtain ⟨c', hc1', hc2', hceq⟩ := hE5 e he2
      have h1 := hlastD e he1
      rw [h1] at hceq
      exact htails 0 c' (by omega) hc2' (by omega) hceq
  have hsubset : ∀ e, e ∈ ((a.take (K + 1) :: E0).map (· ++ a.drop (K + 1))) ++ E →
      e ∈ a.permutations' := by
    intro e he
    rw [List.mem_permutations']
    rcases List.mem_append.mp he with he | he
    · exact hmem e he
    · exact hE3 e he
  have hlen : (((a.take (K + 1) :: E0).map (· ++ a.drop (K + 1))) ++ E).length
      = a.permutations'.length := by
    rw [List.length_append, List.length_map, List.length_cons, length_permutations2, ha,
      hE2]
    have h1 : E0.length + 1 = Nat.factorial (K + 1) := by
      have := hsub2.length_eq
      rw [length_permutations2, htl] at this
      simp only [List.length_cons] at this
      omega
    rw [show Nat.factorial (K + 2) = (K + 2) * Nat.factorial (K + 1) from rfl]
    have hmul : (K + 2) * Nat.factorial (K + 1)
        = (K + 1) * Nat.factorial (K + 1) + Nat.factorial (K + 1) := by ring
    omega
  exact List.Subperm.perm_of_length_le
    (hnodup.subperm (fun x hx => hsubset x hx)) (by omega)

theorem heapFull_correct : ∀ (L : Nat) (a : List Nat), a.length = L + 1 → a.Nodup →
    (heapFull L a).1 = heapNetC (L + 1) a ∧ a :: (heapFull L a).2 ~ a.permutations' := by
  intro L
  induction L with
  | zero =>
    intro a ha _
    obtain ⟨x, rfl⟩ := List.length_eq_one.mp ha
    exact ⟨rfl, List.Perm.refl _⟩
  | succ K ih =>
    intro a ha hnd
    rcases Nat.even_or_odd (K + 1) with hpar | hpar
    · have hev : (K + 1) % 2 = 0 := Nat.even_iff.mp hpar
      have h2 : 2 ≤ K + 1 := by omega
      refine heapFull_correct_level K a ha hnd ih
        (fun c => applyIdx ((srcOdd (K + 1))^[c]) a) (oddBlock_zero _ a)
        (fun c _ => oddBlock_perm (K + 1) hev h2 a ha c) ?_ ?_
        (oddFinal (K + 1) hev h2 a ha)
      · intro c hc1 hcL
        have hidx : heapSwapIdx (K + 1) c = 0 := by
          unfold heapSwapIdx
          rw [if_pos (by omega)]
        rw [hidx]
        exact oddBlock_step (K + 1) hev h2 a ha c hc1
      · intro c c' hc hc' hne
        rw [oddBlock_getLast (K + 1) hev h2 a ha c hc,
          oddBlock_getLast (K + 1) hev h2 a ha c' hc']
        intro hcon
        injection hcon with hcon
        have horb : ∀ d, d ≤ K + 1 → (orbitOdd (K + 1)).getD d 0 < a.length := by
          intro d hd
          have hdm : d < (orbitOdd (K + 1)).length := by
            rw [orbitOdd_length _ h2]
            omega
          have : (orbitOdd (K + 1)).getD d 0 ∈ orbitOdd (K + 1) := by
            rw [List.getD_eq_getElem _ 0 hdm]
            exact List.getElem_mem hdm
          have := orbitOdd_subset (K + 1) h2 this
          rw [List.mem_range] at this
          omega
        have heq := nodup_getD_inj a hnd _ _ (horb c hc) (horb c' hc') hcon
        have hlen2 : c < (orbitOdd (K + 1)).length := by
          rw [orbitOdd_length _ h2]
          omega
        have hlen2' : c' < (orbitOdd (K + 1)).length := by
          rw [orbitOdd_length _ h2]
          omega
        exact hne (nodup_getD_inj (orbitOdd (K + 1)) (orbitOdd_nodup _ h2) c c'
          hlen2 hlen2' heq)
    · have hod : (K + 1) % 2 = 1 := Nat.odd_iff.mp hpar
      have hV : (vEven a).length = (K + 1) + 1 := by
        rw [vEven_length a (by omega)]
        exact ha
      have hVperm : vEven a ~ a := vEven_perm a (by
        intro hc
        rw [hc] at ha
        simp at ha)
      have hVnd : (vEven a).Nodup := hVperm.nodup_iff.mpr hnd
      refine heapFull_correct_level K a ha hnd ih
        (fun c => evenBlock (vEven a) c) (evenBlock_zero a (K + 1) ha)
        (fun c hc => (evenBlock_perm (vEven a) (K + 1) c hV hc).trans hVperm) ?_ ?_
        (evenFinal a (K + 1) hod ha)
      · intro c hc1 hcL
        have hidx : heapSwapIdx (K + 1) c = c - 1 := by
          unfold heapSwapIdx
          rw [if_neg (by omega)]
        rw [hidx, evenBlock_take (vEven a) (K + 1) (c - 1) hV (by omega),
          evenBlock_drop (vEven a) (K + 1) (c - 1) hV (by omega)]
        have hnet : heapNetC (K + 1) (evenBlockP (vEven a) (c - 1))
            = swapEndsT (evenBlockP (vEven a) (c - 1)) := by
          unfold heapNetC
          rw [if_pos hod]
        rw [hnet]
        exact evenStepEq (K + 1) hod (vEven a) hV c hc1 hcL
      · intro c c' hc hc' hne
        rw [evenBlock_getLast _ (K + 1) c hV hc, evenBlock_getLast _ (K + 1) c' hV hc']
        intro hcon
        injection hcon with hcon
        exact hne (nodup_getD_inj (vEven a) hVnd c c' (by omega) (by omega) hcon)

theorem get?_set_same (l : List Nat) (n v : Nat) (h : n < l.length) :
    (l.set n v).get? n = some v := by
  rw [List.get?_eq_getElem?]
  exact List.getElem?_set_self h

theorem get?_set_other (l : List Nat) (n k v : Nat) (h : n ≠ k) :
    (l.set n v).get? k = l.get? k := by
  rw [List.get?_eq_getElem?, List.get?_eq_getElem?]
  exact List.getElem?_set_ne h

theorem listSwap_eq_swapT (l : List Nat) (a b : Nat) (ha : a < l.length)
    (hb : b < l.length) :
    listSwap l a b = some (swapT l a b) := by
  unfold listSwap swapT
  rw [List.get?_eq_getElem?, List.get?_eq_getElem?,
    List.getElem?_eq_getElem ha, List.getElem?_eq_getElem hb]
  rw [List.getD_eq_getElem l 0 ha, List.getD_eq_getElem l 0 hb]

theorem bruteForceStep_swap (g : Graph) (p cnt : List Nat) (s : Nat) (best : Int)
    (vis : List (List Nat)) (c : Nat)
    (hget : cnt.get? s = some c) (hcs : c ≤ s)
    (hs : s < p.length) (hidx : heapSwapIdx s c < p.length) :
    bruteForceStep g { perm := p, counters := cnt, slot := s, best := best, visited := vis }
      = some { perm := swapT p s (heapSwapIdx s c),
               counters := cnt.set s (c + 1), slot := 1,
               best := if calculateTargetFunctionValue g (swapT p s (heapSwapIdx s c)) < best
                 then calculateTargetFunctionValue g (swapT p s (heapSwapIdx s c)) else best,
               visited := swapT p s (heapSwapIdx s c) :: vis } := by
  unfold bruteForceStep
  dsimp only
  rw [hget]
  dsimp only
  simp only [if_pos hcs]
  rw [show (if (s + 1) % 2 = 1 then 0 else c - 1) = heapSwapIdx s c from rfl,
    listSwap_eq_swapT p s (heapSwapIdx s c) hs hidx]

theorem bruteForceStep_reset (g : Graph) (p cnt : List Nat) (s : Nat) (best : Int)
    (vis : List (List Nat)) (c : Nat)
    (hget : cnt.get? s = some c) (hcs : ¬ c ≤ s) :
    bruteForceStep g { perm := p, counters := cnt, slot := s, best := best, visited := vis }
      = some { perm := p, counters := cnt.set s 1, slot := s + 1, best := best,
               visited := vis } := by
  unfold bruteForceStep
  dsimp only
  rw [hget]
  dsimp only
  simp only [if_neg hcs]

theorem bruteForceLoop_succ (g : Graph) (m fuel : Nat) (st st2 : BFState)
    (hstep : bruteForceStep g st = some st2) :
    bruteForceLoop g m (fuel + 1) st = bfAfter g m fuel st2 := by
  unfold bruteForceLoop bfAfter
  rw [hstep]

theorem bfBest_append (g : Graph) (E F : List (List Nat)) (b : Int) :
    bfBest g (E ++ F) b = bfBest g F (bfBest g E b) :=
  List.foldl_append _ _ _ _

theorem bf_sim_level (g : Graph) (m L : Nat) (hm : L + 2 ≤ m)
    (sim : ∀ (p cnt : List Nat) (best : Int) (vis : List (List Nat)) (fuel : Nat),
      p.length = m → cnt.length = m → (∀ q, 1 ≤ q → q ≤ L → cnt.get? q = some 1) →
      bruteForceLoop g m (stepsL L + fuel)
          { perm := p, counters := cnt, slot := 1, best := best, visited := vis }
        = bfAfter g m fuel (bfLevelState g L p cnt best vis)) :
    ∀ (rem c : Nat) (p cnt : List Nat) (best : Int) (vis : List (List Nat)) (fuel : Nat),
      rem + c = L + 2 → 1 ≤ c →
      p.length = m → cnt.length = m →
      (∀ q, 1 ≤ q → q ≤ L → cnt.get? q = some 1) →
      cnt.get? (L + 1) = some c →
      bruteForceLoop g m (rem * (stepsL L + 1) + 1 + fuel)
          { perm := p, counters := cnt, slot := L + 1, best := best, visited := vis }
        = bfAfter g m fuel
            { perm := (heapLevelAux (heapFull L) (L + 1) rem c p).1,
              counters := cnt.set (L + 1) 1, slot := L + 2,
              best := bfBest g (heapLevelAux (heapFull L) (L + 1) rem c p).2 best,
              visited := (heapLevelAux (heapFull L) (L + 1) rem c p).2.reverse ++ vis } := by
  intro rem
  induction rem with
  | zero =>
    intro c p cnt best vis fuel hrc _ hp hcnt _ hgetc
    rw [show 0 * (stepsL L + 1) + 1 + fuel = fuel + 1 from by omega]
    rw [bruteForceLoop_succ g m fuel _ _
      (bruteForceStep_reset g p cnt (L + 1) best vis c hgetc (by omega))]
    rfl
  | succ rm ih =>
    intro c p cnt best vis fuel hrc hc1 hp hcnt hones hgetc
    have hcL : c ≤ L + 1 := by omega
    have hidx : heapSwapIdx (L + 1) c < p.length := by
      unfold heapSwapIdx
      split_ifs <;> omega
    rw [show (rm + 1) * (stepsL L + 1) + 1 + fuel
      = (stepsL L + (rm * (stepsL L + 1) + 1 + fuel)) + 1 from by ring]
    rw [bruteForceLoop_succ g m _ _ _
      (bruteForceStep_swap g p cnt (L + 1) best vis c hgetc hcL (by omega) hidx)]
    set p1 := swapT p (L + 1) (heapSwapIdx (L + 1) c) with hp1
    set b1 := (if calculateTargetFunctionValue g p1 < best
      then calculateTargetFunctionValue g p1 else best) with hb1
    have hafter : bfAfter g m (stepsL L + (rm * (stepsL L + 1) + 1 + fuel))
        { perm := p1, counters := cnt.set (L + 1) (c + 1), slot := 1, best := b1,
          visited := p1 :: vis }
        = bruteForceLoop g m (stepsL L + (rm * (stepsL L + 1) + 1 + fuel))
          { perm := p1, counters := cnt.set (L + 1) (c + 1), slot := 1, best := b1,
            visited := p1 :: vis } := by
      unfold bfAfter
      dsimp only
      rw [if_pos (by omega)]
    rw [hafter]
    rw [sim p1 (cnt.set (L + 1) (c + 1)) b1 (p1 :: vis) (rm * (stepsL L + 1) + 1 + fuel)
      (by rw [hp1, swapT_length]; exact hp)
      (by rw [List.length_set]; exact hcnt)
      (fun q hq1 hq2 => by
        rw [get?_set_other cnt (L + 1) q (c + 1) (by omega)]
        exact hones q hq1 hq2)]
    have hafter2 : bfAfter g m (rm * (stepsL L + 1) + 1 + fuel)
        (bfLevelState g L p1 (cnt.set (L + 1) (c + 1)) b1 (p1 :: vis))
        = bruteForceLoop g m (rm * (stepsL L + 1) + 1 + fuel)
          (bfLevelState g L p1 (cnt.set (L + 1) (c + 1)) b1 (p1 :: vis)) := by
      unfold bfAfter bfLevelState
      dsimp only
      rw [if_pos (by omega)]
    rw [hafter2]
    unfold bfLevelState
    rw [ih (c + 1) (heapFull L p1).1 (cnt.set (L + 1) (c + 1))
      (bfBest g (heapFull L p1).2 b1) ((heapFull L p1).2.reverse ++ (p1 :: vis)) fuel
      (by omega) (by omega)
      (by rw [heapFull_len]; rw [hp1, swapT_length]; exact hp)
      (by rw [List.length_set]; exact hcnt)
      (fun q hq1 hq2 => by
        rw [get?_set_other cnt (L + 1) q (c + 1) (by omega)]
        exact hones q hq1 hq2)
      (get?_set_same cnt (L + 1) (c + 1) (by omega))]
    rw [List.set_set]
    have haux : heapLevelAux (heapFull L) (L + 1) (rm + 1) c p
        = ((heapLevelAux (heapFull L) (L + 1) rm (c + 1) (heapFull L p1).1).1,
           p1 :: ((heapFull L p1).2
             ++ (heapLevelAux (heapFull L) (L + 1) rm (c + 1) (heapFull L p1).1).2)) := by
      simp only [heapLevelAux]
    rw [haux]
    have hbest : bfBest g
        (p1 :: ((heapFull L p1).2
          ++ (heapLevelAux (heapFull L) (L + 1) rm (c + 1) (heapFull L p1).1).2)) best
        = bfBest g (heapLevelAux (heapFull L) (L + 1) rm (c + 1) (heapFull L p1).1).2
            (bfBest g (heapFull L p1).2 b1) := by
      unfold bfBest
      rw [List.foldl_cons, List.foldl_append, ← hb1]
    have hvis : (p1 :: ((heapFull L p1).2
          ++ (heapLevelAux (heapFull L) (L + 1) rm (c + 1) (heapFull L p1).1).2)).reverse ++ vis
        = (heapLevelAux (heapFull L) (L + 1) rm (c + 1) (heapFull L p1).1).2.reverse
            ++ ((heapFull L p1).2.reverse ++ (p1 :: vis)) := by
      simp [List.reverse_cons, List.reverse_append, List.append_assoc]
    dsimp only
    rw [hbest, hvis]

theorem bf_sim (g : Graph) (m : Nat) (h2m : 2 ≤ m) :
    ∀ (L : Nat), L + 1 ≤ m →
    ∀ (p cnt : List Nat) (best : Int) (vis : List (List Nat)) (fuel : Nat),
      p.length = m → cnt.length = m → (∀ q, 1 ≤ q → q ≤ L → cnt.get? q = some 1) →
      bruteForceLoop g m (stepsL L + fuel)
          { perm := p, counters := cnt, slot := 1, best := best, visited := vis }
        = bfAfter g m fuel (bfLevelState g L p cnt best vis) := by
  intro L
  induction L with
  | zero =>
    intro _ p cnt best vis fuel hp hcnt _
    show bruteForceLoop g m (0 + fuel) _ = _
    rw [Nat.zero_add]
    unfold bfAfter bfLevelState
    dsimp only
    rw [if_pos (by omega)]
    rfl
  | succ K ih =>
    intro hKm p cnt best vis fuel hp hcnt hones
    rw [show stepsL (K + 1) + fuel
      = stepsL K + (((K + 1) * (stepsL K + 1) + 1) + fuel) from by
        show stepsL K + (K + 1) * (stepsL K + 1) + 1 + fuel = _
        ring]
    rw [ih (by omega) p cnt best vis _ hp hcnt
      (fun q h1 h2 => hones q h1 (by omega))]
    have h1 : bfAfter g m ((K + 1) * (stepsL K + 1) + 1 + fuel)
        (bfLevelState g K p cnt best vis)
        = bruteForceLoop g m ((K + 1) * (stepsL K + 1) + 1 + fuel)
          (bfLevelState g K p cnt best vis) := by
      unfold bfAfter bfLevelState
      dsimp only
      rw [if_pos (by omega)]
    rw [h1]
    unfold bfLevelState
    rw [bf_sim_level g m K (by omega)
      (fun p' cnt' b' v' f' hp' hc' ho' => ih (by omega) p' cnt' b' v' f' hp' hc' ho')
      (K + 1) 1 (heapFull K p).1 cnt (bfBest g (heapFull K p).2 best)
      ((heapFull K p).2.reverse ++ vis) fuel (by omega) (by omega)
      (by rw [heapFull_len]; exact hp) hcnt
      (fun q hq1 hq2 => hones q hq1 (by omega))
      (hones (K + 1) (by omega) (by omega))]
    rw [set_get_self cnt (K + 1) 1 (hones (K + 1) (by omega) (by omega))]
    have hfull : heapFull (K + 1) p
        = ((heapLevelAux (heapFull K) (K + 1) (K + 1) 1 (heapFull K p).1).1,
           (heapFull K p).2
             ++ (heapLevelAux (heapFull K) (K + 1) (K + 1) 1 (heapFull K p).1).2) := by
      simp only [heapFull]
    rw [hfull]
    dsimp only
    rw [bfBest_append, List.reverse_append, List.append_assoc]

theorem stepsL_bound (L : Nat) : stepsL L + 1 ≤ Nat.factorial (L + 1) * (L + 2) := by
  induction L with
  | zero => decide
  | succ K ih =>
    show stepsL K + (K + 1) * (stepsL K + 1) + 1 + 1 ≤ Nat.factorial (K + 2) * (K + 3)
    have h1 : Nat.factorial (K + 2) = (K + 2) * Nat.factorial (K + 1) := rfl
    have h2 : 1 ≤ Nat.factorial (K + 1) := Nat.one_le_iff_ne_zero.mpr
      (Nat.factorial_ne_zero _)
    nlinarith [ih, h2]

theorem bruteForceRun_sim (g : Graph) (h3 : 3 ≤ g.n) :
    bruteForceRun g = some
      { perm := (heapFull (g.n - 1 - 1) (List.range (g.n - 1))).1,
        counters := List.replicate (g.n - 1) 1,
        slot := g.n - 1 - 1 + 1,
        best := bfBest g (heapFull (g.n - 1 - 1) (List.range (g.n - 1))).2
          (calculateTargetFunctionValue g (List.range (g.n - 1))),
        visited := (heapFull (g.n - 1 - 1) (List.range (g.n - 1))).2.reverse
          ++ [List.range (g.n - 1)] } := by
  unfold bruteForceRun
  dsimp only
  have hm2 : 2 ≤ g.n - 1 := by omega
  have hfb : stepsL (g.n - 1 - 1) ≤ bfFuel (g.n - 1) := by
    have h1 := stepsL_bound (g.n - 1 - 1)
    unfold bfFuel
    have h2 : Nat.factorial (g.n - 1 - 1 + 1) * (g.n - 1 - 1 + 2)
        ≤ Nat.factorial (g.n - 1 + 1) * (g.n - 1 + 2) := by
      apply Nat.mul_le_mul
      · exact Nat.factorial_le (by omega)
      · omega
    omega
  rw [show bfFuel (g.n - 1)
    = stepsL (g.n - 1 - 1) + (bfFuel (g.n - 1) - stepsL (g.n - 1 - 1)) from by omega]
  rw [bf_sim g (g.n - 1) hm2 (g.n - 1 - 1) (by omega) (List.range (g.n - 1))
    (List.replicate (g.n - 1) 1) _ _ _ (List.length_range _)
    (List.length_replicate _ _)
    (fun q hq1 hq2 => by
      rw [List.get?_eq_getElem?, List.getElem?_replicate, if_pos (by omega)])]
  unfold bfAfter bfLevelState
  dsimp only
  rw [if_neg (by omega)]

/-- C3 counterexample for n = 2: on the well-formed two-vertex instance g2
the do-while loop's very first iteration reads stackCounters[1] on a vector
of size permutationSize = 1 (modelled as none), so no permutation is ever
evaluated and no minimum is returned, refuting the claim as stated for
n >= 2. -/
theorem bruteForce_oob_on_g2 :
    WellFormed g2 ∧ 2 ≤ g2.n ∧ bruteForce g2 = none :=
  ⟨by decide, by decide, by decide⟩

/-- C3 (amended to n >= 3): the permutation-generation loop of bruteForce
terminates within its fuel, evaluates every permutation of the n-1
non-origin vertices exactly once (the ghost visited list is a permutation
of the duplicate-free list of all of them), starts from the natural-order
permutation (the oldest visited entry), and returns the minimum cycle cost
over all of them, which is the order-independent optimum optCost. -/
theorem bruteForce_heap_correct (g : Graph) (hwf : WellFormed g) (h3 : 3 ≤ g.n) :
    ∃ st, bruteForceRun g = some st ∧
      st.visited ~ allPerms g ∧
      st.visited.getLast? = some (List.range (g.n - 1)) ∧
      st.best = optCost g ∧
      bruteForce g = some (optCost g) := by
  have hrun := bruteForceRun_sim g h3
  have hL : (List.range (g.n - 1)).length = (g.n - 1 - 1) + 1 := by
    rw [List.length_range]
    omega
  obtain ⟨hnet, hperm⟩ := heapFull_correct (g.n - 1 - 1) (List.range (g.n - 1)) hL
    (List.nodup_range _)
  have hvisperm : (heapFull (g.n - 1 - 1) (List.range (g.n - 1))).2.reverse
      ++ [List.range (g.n - 1)] ~ allPerms g := by
    calc (heapFull (g.n - 1 - 1) (List.range (g.n - 1))).2.reverse
          ++ [List.range (g.n - 1)]
        ~ List.range (g.n - 1)
            :: (heapFull (g.n - 1 - 1) (List.range (g.n - 1))).2.reverse :=
          List.perm_append_singleton _ _
      _ ~ List.range (g.n - 1) :: (heapFull (g.n - 1 - 1) (List.range (g.n - 1))).2 :=
          (List.reverse_perm _).cons _
      _ ~ allPerms g := hperm
  have hlast : ((heapFull (g.n - 1 - 1) (List.range (g.n - 1))).2.reverse
      ++ [List.range (g.n - 1)]).getLast? = some (List.range (g.n - 1)) :=
    List.getLast?_concat _
  have hbest : bfBest g (heapFull (g.n - 1 - 1) (List.range (g.n - 1))).2
      (calculateTargetFunctionValue g (List.range (g.n - 1))) = optCost g := by
    unfold bfBest
    rw [foldl_runMin_eq]
    apply Int.le_antisymm
    · obtain ⟨l, hl, hleq⟩ := optCost_attained g
      have hlm : l ∈ List.range (g.n - 1)
          :: (heapFull (g.n - 1 - 1) (List.range (g.n - 1))).2 := by
        rw [hperm.mem_iff]
        exact List.mem_permutations'.mpr hl
      rcases List.mem_cons.mp hlm with rfl | hlm
      · rw [hleq]
        exact listMinD_le_init _ _
      · rw [hleq]
        exact listMinD_le_mem _ _ _ (List.mem_map.mpr ⟨l, hlm, rfl⟩)
    · apply le_listMinD
      · exact optCost_le_tour g _ (List.Perm.refl _)
      · intro x hx
        obtain ⟨l, hlm, rfl⟩ := List.mem_map.mp hx
        exact optCost_le_tour g l
          (List.mem_permutations'.mp (hperm.mem_iff.mp (List.mem_cons_of_mem _ hlm)))
  refine ⟨_, hrun, hvisperm, hlast, hbest, ?_⟩
  unfold bruteForce
  rw [hrun]
  exact congrArg some hbest

/-- Witness for the amended C3 theorem at the concrete 4-vertex instance of
spec section 8: the hypotheses are satisfied (the instance is well-formed and
has four vertices), so bruteForce visits all six permutations exactly once
and returns the optimum. -/
theorem bruteForce_heap_correct_witness :
    WellFormed g4 ∧ 3 ≤ g4.n ∧
      (∃ st, bruteForceRun g4 = some st ∧
        st.visited ~ allPerms g4 ∧
        st.visited.getLast? = some (List.range (g4.n - 1)) ∧
        st.best = optCost g4 ∧
        bruteForce g4 = some (optCost g4)) :=
  ⟨by decide, by decide, bruteForce_heap_correct g4 (by decide) (by decide)⟩
